import Mathlib

/-!
# Verification of the rustfmsynth FM synthesis engine

This file gives a shallow embedding, in Lean 4, of the core of the
`rustfmsynth` FM synthesis engine (the modulation-graph compiler in
`src/synth/algorithm.rs`, the operator/envelope/waveform/filter audio path in
`src/synth/operator.rs`, `envelope.rs`, `waveform.rs`, `filter.rs`, and the
voice/synth block-render path in `voice.rs` and `core.rs`), and settles a set
of claims about it.

Conventions of the embedding:
* Rust `f32` values are modelled as real numbers (`ℝ`); `usize`/`u64` as `ℕ`.
* `Vec<T>` is modelled as `List T`; in-place mutation becomes explicit state
  passing (functions return the updated state together with their result).
* Rust `Result<T, String>` is modelled as `Except String T`.
* Recursions whose termination depends on data invariants (the depth-limited
  DFS of the graph compiler, the plan walker of the executor, the duplication
  work-list of the feedback pass) take an explicit fuel argument; the fuel
  supplied by the top-level entry points is large enough for every execution
  the Rust code performs.
* The native `random_range` helper (in `prelude.rs`) constructs a fresh
  `SmallRng` seeded with the constant 42 on every call, so each call returns
  one and the same value; it is modelled by an arbitrary but fixed function
  parameter `rng42 : ℝ → ℝ → ℝ` threaded through the audio path.
-/

namespace RustFmSynth

/-- `mapIdxFrom k f l` maps `f` over `l` passing along the element index,
starting at index `k`.  It models Rust loops of the form
`for i in 0..len \x7b buf[i] = f(i, buf[i]) \x7d`. -/
def mapIdxFrom (k : ℕ) (f : ℕ → α → β) : List α → List β
  | [] => []
  | x :: xs => f k x :: mapIdxFrom (k + 1) f xs

theorem mapIdxFrom_length (k : ℕ) (f : ℕ → α → β) (l : List α) :
    (mapIdxFrom k f l).length = l.length := by
  induction l generalizing k with
  | nil => rfl
  | cons x xs ih => simp [mapIdxFrom, ih]

theorem mapIdxFrom_mapIdxFrom (k : ℕ) (f : ℕ → β → γ) (g : ℕ → α → β) (l : List α) :
    mapIdxFrom k f (mapIdxFrom k g l) = mapIdxFrom k (fun i x => f i (g i x)) l := by
  induction l generalizing k with
  | nil => rfl
  | cons x xs ih => simp [mapIdxFrom, ih]

theorem mapIdxFrom_congr (k : ℕ) (f g : ℕ → α → β) (l : List α)
    (h : ∀ i x, f i x = g i x) : mapIdxFrom k f l = mapIdxFrom k g l := by
  induction l generalizing k with
  | nil => rfl
  | cons x xs ih => simp [mapIdxFrom, h, ih]

/-! ## The modulation-graph compiler (`src/synth/algorithm.rs`)

The scalar payload of a matrix cell (`ConnectionParams.scale`, the optional
modulation envelope) is irrelevant for plan construction — the compiler only
asks `is_some()` — but it is kept for fidelity with the source. -/

/-- `EnvelopeGenerator` (from `src/synth/envelope.rs`): stateless ADSR
parameters with a curve blend factor. -/
structure EnvelopeGenerator where
  attack : ℝ
  decay : ℝ
  sustain : ℝ
  release : ℝ
  curve : ℝ
  curve_blend_factor : ℝ

/-- `ConnectionParams` (from `src/synth/algorithm.rs`). -/
structure ConnectionParams where
  modulation_envelope : Option EnvelopeGenerator
  scale : ℝ

/-- `ConnectionParams::default()`: no modulation envelope, scale 1.0. -/
def ConnectionParams.default : ConnectionParams :=
  { modulation_envelope := none, scale := 1 }

/-- `UnrolledNode` (from `src/synth/algorithm.rs`): one node of the compiled
evaluation plan. -/
structure UnrolledNode where
  original_op_index : ℕ
  input_node_indices : List ℕ
deriving DecidableEq, Repr

/-- `FeedbackLoop` (from `src/synth/algorithm.rs`). -/
structure FeedbackLoop where
  from_node : ℕ
  to_node : ℕ
  count : ℕ

/-- The connection matrix type: `Vec<Vec<Option<ConnectionParams>>>`. -/
abbrev ConnMatrix := List (List (Option ConnectionParams))

/-- `MAX_CYCLE_DEPTH` (local constant of `Algorithm::build_node_recursive`). -/
def MAX_CYCLE_DEPTH : ℕ := 2

/-- The source-scanning loop inside `Algorithm::build_node_recursive`:
iterates over the remaining candidate source operators `sources`, and for
every `s` with `matrix[s][target]` present runs the recursive builder `step`
(`build_node_recursive` one fuel level down), accumulating the returned child
node indices in order.  Errors abort the loop. -/
def buildInputsGo (step : ℕ → List UnrolledNode → Except String (Option ℕ × List UnrolledNode))
    (matrix : ConnMatrix) (target : ℕ) :
    List ℕ → List ℕ → List UnrolledNode → Except String (List ℕ × List UnrolledNode)
  | [], acc, nodes => .ok (acc, nodes)
  | s :: rest, acc, nodes =>
    if ((matrix.getD s []).getD target none).isSome then
      match step s nodes with
      | .error e => .error e
      | .ok (some idx, nodes') => buildInputsGo step matrix target rest (acc ++ [idx]) nodes'
      | .ok (none, nodes') => buildInputsGo step matrix target rest acc nodes'
    else buildInputsGo step matrix target rest acc nodes

/-- `Algorithm::build_node_recursive`: recursively builds the unrolled graph
rooted at operator `target`.  `path` is the stack of operator indices on the
current DFS path (`visited_path`); a branch stops (without error) as soon as
`target` already occurs `MAX_CYCLE_DEPTH` times on the path.  Every call
creates a fresh node — node `nodes.length` — *before* recursing into its
modulation sources, then assigns the recursively-created children as its
inputs.  `fuel` bounds the recursion depth; the top-level callers pass
`2 * matrix.length + 2`, which dominates every path the depth-limited DFS can
take (each operator occurs at most `MAX_CYCLE_DEPTH = 2` times on a path). -/
def buildNodeRec (matrix : ConnMatrix) :
    ℕ → ℕ → List UnrolledNode → List ℕ → Except String (Option ℕ × List UnrolledNode)
  | 0, _, _, _ => .error "recursion fuel exhausted"
  | fuel + 1, target, nodes, path =>
    if MAX_CYCLE_DEPTH ≤ path.count target then .ok (none, nodes)
    else if matrix.length ≤ target then .error "Operator index out of bounds."
    else
      let currentIdx := nodes.length
      match buildInputsGo (fun s ns => buildNodeRec matrix fuel s ns (path ++ [target]))
          matrix target (List.range matrix.length) [] (nodes ++ [⟨target, []⟩]) with
      | .error e => .error e
      | .ok (inputs, nodes2) =>
        .ok (some currentIdx, nodes2.set currentIdx ⟨target, inputs⟩)

/-- Step 1 of `Algorithm::build_unrolled_graph`: traverse from each carrier,
skipping carriers already rooted (the `root_node_indices` map — only its key
set matters for control flow, but the values are kept for fidelity).  A
carrier whose build stops immediately on the depth limit only logs a warning
and inserts no root. -/
def buildRoots (matrix : ConnMatrix) (fuel : ℕ) :
    List ℕ → List (ℕ × ℕ) → List UnrolledNode →
    Except String (List (ℕ × ℕ) × List UnrolledNode)
  | [], roots, nodes => .ok (roots, nodes)
  | c :: rest, roots, nodes =>
    if (roots.lookup c).isSome then buildRoots matrix fuel rest roots nodes
    else
      match buildNodeRec matrix fuel c nodes [] with
      | .ok (some rootIdx, nodes') => buildRoots matrix fuel rest (roots ++ [(c, rootIdx)]) nodes'
      | .ok (none, nodes') => buildRoots matrix fuel rest roots nodes'
      | .error e => .error ("Failed building graph from carrier: " ++ e)

/-- Association-list insert modelling `HashMap::insert` (replace the binding
of the key if present, otherwise add it; `List.lookup` then finds it). -/
def mapInsert (m : List (ℕ × ℕ)) (k v : ℕ) : List (ℕ × ℕ) :=
  (k, v) :: m.filter (fun p => p.1 ≠ k)

/-- Phase 1 of a feedback-rule application in `build_unrolled_graph`: the
work-list duplication of the subgraph rooted at the rule's `to_node`.  The
stack head is the Rust `Vec` top; inputs are pushed in order (so the last
input ends on top), each guarded by the `visited_duplication` membership test
both at push and at pop time.  Returns the `original → duplicate` mapping and
the extended node list.  `fuel` bounds the loop; the caller supplies a bound
dominating the total number of possible pushes. -/
def dupPhase1 (initial : List UnrolledNode) :
    ℕ → List ℕ → List ℕ → List (ℕ × ℕ) → List UnrolledNode →
    List (ℕ × ℕ) × List UnrolledNode
  | 0, _, _, dmap, nodes => (dmap, nodes)
  | _ + 1, [], _, dmap, nodes => (dmap, nodes)
  | fuel + 1, orig :: stack, visited, dmap, nodes =>
    if initial.length ≤ orig ∨ orig ∈ visited then
      dupPhase1 initial fuel stack visited dmap nodes
    else
      let node_to_copy := initial.getD orig ⟨0, []⟩
      let newIdx := nodes.length
      let nodes' := nodes ++ [⟨node_to_copy.original_op_index, []⟩]
      let pushes := (node_to_copy.input_node_indices.filter
        (fun i => ¬ i ∈ orig :: visited)).reverse
      dupPhase1 initial fuel (pushes ++ stack) (orig :: visited)
        (dmap ++ [(orig, newIdx)]) nodes'

/-- Phase 2 of a feedback-rule application: relink the inputs of every
duplicated node — an input duplicated in this pass maps to its duplicate,
otherwise to its current live index (missing or out-of-bounds links are
skipped with a warning in the source). -/
def dupPhase2 (initial : List UnrolledNode) (mapping : List (ℕ × ℕ))
    (dmapAll : List (ℕ × ℕ)) :
    List (ℕ × ℕ) → List UnrolledNode → List UnrolledNode
  | [], nodes => nodes
  | (orig, newIdx) :: rest, nodes =>
    if initial.length ≤ orig ∨ nodes.length ≤ newIdx then dupPhase2 initial mapping dmapAll rest nodes
    else
      let original_node := initial.getD orig ⟨0, []⟩
      let new_inputs := original_node.input_node_indices.filterMap (fun inp =>
        match dmapAll.lookup inp with
        | some d => some d
        | none =>
          match mapping.lookup inp with
          | some cur => if cur < nodes.length then some cur else none
          | none => none)
      dupPhase2 initial mapping dmapAll rest
        (nodes.set newIdx ⟨(nodes.getD newIdx ⟨0, []⟩).original_op_index, new_inputs⟩)

/-- One iteration (`for i in 0..loop_rule.count`) of a feedback rule in
`build_unrolled_graph`: duplicate the subgraph rooted at `to_node`, relink
it, attach the duplicate's root as an extra input of the live counterpart of
`from_node`, and fold the duplication mapping into the live-index mapping. -/
def applyLoopIter (initial : List UnrolledNode) (rule : FeedbackLoop)
    (st : List (ℕ × ℕ) × List UnrolledNode) : List (ℕ × ℕ) × List UnrolledNode :=
  let mapping := st.1
  let nodes := st.2
  match mapping.lookup rule.from_node with
  | none => st
  | some target_idx =>
    let fuel := 2 + initial.length + (initial.map (fun n => n.input_node_indices.length)).sum
    let (dmap, nodes1) := dupPhase1 initial fuel [rule.to_node] [] [] nodes
    let nodes2 := dupPhase2 initial mapping dmap dmap nodes1
    let nodes3 :=
      match dmap.lookup rule.to_node with
      | some rootIdx =>
        if target_idx < nodes2.length then
          let t := nodes2.getD target_idx ⟨0, []⟩
          nodes2.set target_idx ⟨t.original_op_index, t.input_node_indices ++ [rootIdx]⟩
        else nodes2
      | none => nodes2
    let mapping' := dmap.foldl (fun m p => mapInsert m p.1 p.2) mapping
    (mapping', nodes3)

/-- Step 2 of `build_unrolled_graph`: apply every feedback rule in order,
`count` iterations each; rules with out-of-bounds node indices (with respect
to the graph before any rule was applied) are skipped with a warning. -/
def applyLoops (initial : List UnrolledNode) (loops : List FeedbackLoop)
    (st : List (ℕ × ℕ) × List UnrolledNode) : List (ℕ × ℕ) × List UnrolledNode :=
  loops.foldl (fun st rule =>
    if initial.length ≤ rule.from_node ∨ initial.length ≤ rule.to_node then st
    else (List.range rule.count).foldl (fun st _ => applyLoopIter initial rule st) st) st

/-- `Algorithm::build_unrolled_graph`: build the base DAG from the carriers,
then apply the feedback rules. -/
def buildUnrolledGraph (matrix : ConnMatrix) (carriers : List ℕ)
    (feedback_loops : List FeedbackLoop) : Except String (List UnrolledNode) :=
  match buildRoots matrix (2 * matrix.length + 2) carriers [] [] with
  | .error e => .error e
  | .ok (_, nodes) =>
    let initial := nodes
    let mapping0 := (List.range initial.length).map (fun i => (i, i))
    .ok (applyLoops initial feedback_loops (mapping0, nodes)).2

/-- `Algorithm` (from `src/synth/algorithm.rs`). -/
structure Algorithm where
  matrix : ConnMatrix
  carriers : List ℕ
  repeat_rules : List FeedbackLoop
  unrolled_nodes : List UnrolledNode

/-- `Algorithm::rebuild_unrolled_graph` run on given fields: on error the
node list is cleared (the source logs the error and clears). -/
def rebuildNodes (matrix : ConnMatrix) (carriers : List ℕ)
    (repeat_rules : List FeedbackLoop) : List UnrolledNode :=
  match buildUnrolledGraph matrix carriers repeat_rules with
  | .ok nodes => nodes
  | .error _ => []

/-- `Algorithm::new`: validates squareness of the matrix and the carrier
bounds, then compiles the plan. -/
def Algorithm.new (matrix : ConnMatrix) (carriers : List ℕ) : Except String Algorithm :=
  let num_ops := matrix.length
  if 0 < num_ops ∧ ¬ (matrix.all (fun row => row.length = num_ops)) then
    .error "Adjacency matrix must be square."
  else
    match carriers.max? with
    | some max_carrier =>
      if num_ops ≤ max_carrier then
        .error "Carrier index out of bounds."
      else
        .ok { matrix := matrix, carriers := carriers, repeat_rules := [],
              unrolled_nodes := rebuildNodes matrix carriers [] }
    | none =>
      .ok { matrix := matrix, carriers := carriers, repeat_rules := [],
            unrolled_nodes := rebuildNodes matrix carriers [] }

/-- `Algorithm::default_simple`: all-`None` matrix, carrier `[0]` when there
is at least one operator. -/
def Algorithm.default_simple (num_operators : ℕ) : Except String Algorithm :=
  let matrix : ConnMatrix := List.replicate num_operators (List.replicate num_operators none)
  let carriers : List ℕ := if 0 < num_operators then [0] else []
  Algorithm.new matrix carriers

/-- Insertion into a sorted list, for modelling `sort_unstable` on the new
carrier list. -/
def insertSorted (x : ℕ) : List ℕ → List ℕ
  | [] => [x]
  | y :: ys => if x ≤ y then x :: y :: ys else y :: insertSorted x ys

/-- `Vec::sort_unstable` on a list of naturals (insertion sort). -/
def sortNat (l : List ℕ) : List ℕ := l.foldr insertSorted []

/-- `Vec::dedup`: remove consecutive duplicates. -/
def dedupAdj : List ℕ → List ℕ
  | [] => []
  | [a] => [a]
  | a :: b :: t => if a = b then dedupAdj (b :: t) else a :: dedupAdj (b :: t)

/-- The cell update performed by the matrix-rewrite loop of
`Algorithm::set_matrix` on cell `(i, j)` of the internal matrix (`n` is the
synth operator count, `u` the UI operator count): inside the `u × u` window a
connection is created (preserving an existing `ConnectionParams`) or cleared
according to the UI bit; cells outside the window but inside the `n × n` loop
range are cleared; cells beyond the loop range are left untouched. -/
def setMatrixCell (ui : List (List ℕ)) (u n i j : ℕ)
    (cell : Option ConnectionParams) : Option ConnectionParams :=
  if j < n then
    if i < u ∧ j < u then
      if 1 ≤ (ui.getD i []).getD j 0 then
        match cell with
        | some c => some c
        | none => some ConnectionParams.default
      else none
    else none
  else cell

/-- The full matrix-rewrite loop of `Algorithm::set_matrix`. -/
def setMatrixUpdate (ui : List (List ℕ)) (u : ℕ) (matrix : ConnMatrix) : ConnMatrix :=
  mapIdxFrom 0 (fun i row => mapIdxFrom 0 (fun j cell => setMatrixCell ui u matrix.length i j cell) row) matrix

/-- The carrier-extraction loop of `Algorithm::set_matrix`: operator `i` is a
carrier iff the last column (`ui[i][u]`) exists and is `≥ 1`. -/
def setMatrixCarriers (ui : List (List ℕ)) (u : ℕ) : List ℕ :=
  (List.range u).filter (fun i => u < (ui.getD i []).length ∧ 1 ≤ (ui.getD i []).getD u 0)

/-- `Algorithm::set_matrix`: takes the combined `(N)×(N+1)` UI matrix (last
column = carrier bits), recomputes the carriers and the internal connection
matrix, clears the feedback rules and recompiles the plan.  An empty UI
matrix is a no-op.  (Note: the source contains no check that the new carrier
set is non-empty, although its comments refer to one.) -/
def Algorithm.set_matrix (alg : Algorithm) (ui : List (List ℕ)) : Except String Algorithm :=
  let u := ui.length
  if u = 0 then .ok alg
  else
    let new_carriers := setMatrixCarriers ui u
    let matrix' := setMatrixUpdate ui u alg.matrix
    let carriers' := dedupAdj (sortNat new_carriers)
    .ok { matrix := matrix', carriers := carriers', repeat_rules := [],
          unrolled_nodes := rebuildNodes matrix' carriers' [] }

/-! ## The envelope generator (`src/synth/envelope.rs`) -/

noncomputable section

/-- `EPSILON` (from `src/synth/envelope.rs`). -/
def EPSILON : ℝ := 1e-6

/-- The `lerp` helper of `envelope.rs`. -/
def lerp (a b t : ℝ) : ℝ := a * (1 - t) + b * t

/-- Rust `p.min(1.0).max(0.0)` — the progress clamp used by both curve
helpers. -/
def clamp01 (p : ℝ) : ℝ := max (min p 1) 0

/-- `EnvelopeGenerator::set_params`: clamps every duration at 0 and the
sustain level into `[0, 1]`. -/
def EnvelopeGenerator.set_params (eg : EnvelopeGenerator) (attack decay sustain release : ℝ) :
    EnvelopeGenerator :=
  { eg with attack := max attack 0, decay := max decay 0,
            sustain := min (max sustain 0) 1, release := max release 0 }

/-- `EnvelopeGenerator::set_curve` composed with `calculate_curve_params`:
the blend factor is the user curve control divided by 10. -/
def EnvelopeGenerator.set_curve (eg : EnvelopeGenerator) (curve : ℝ) : EnvelopeGenerator :=
  { eg with curve := curve, curve_blend_factor := curve / 10 }

/-- `EnvelopeGenerator::apply_curve_attack`: blends the linear attack shape
`p` with the exponential shape `2^p − 1`. -/
def EnvelopeGenerator.apply_curve_attack (eg : EnvelopeGenerator) (linear_progress : ℝ) : ℝ :=
  let p := clamp01 linear_progress
  if eg.curve_blend_factor ≤ EPSILON then p
  else lerp p ((2 : ℝ) ^ p - 1) eg.curve_blend_factor

/-- `EnvelopeGenerator::apply_curve_decay_release`: blends the linear decay
multiplier `1 − p` with the exponential multiplier `2 − 2^p`. -/
def EnvelopeGenerator.apply_curve_decay_release (eg : EnvelopeGenerator) (linear_progress : ℝ) : ℝ :=
  let p := clamp01 linear_progress
  if eg.curve_blend_factor ≤ EPSILON then 1 - p
  else lerp (1 - p) (2 - (2 : ℝ) ^ p) eg.curve_blend_factor

/-- `EnvelopeGenerator::evaluate_non_release`: the attack/decay/sustain
portion of the envelope. -/
def EnvelopeGenerator.evaluate_non_release (eg : EnvelopeGenerator) (time_since_on : ℝ) : ℝ :=
  if time_since_on < eg.attack then
    if eg.attack ≤ EPSILON then 1
    else eg.apply_curve_attack (time_since_on / eg.attack)
  else if time_since_on < eg.attack + eg.decay then
    if eg.decay ≤ EPSILON then eg.sustain
    else
      let decay_elapsed := time_since_on - eg.attack
      eg.sustain + (1 - eg.sustain) * eg.apply_curve_decay_release (decay_elapsed / eg.decay)
  else eg.sustain

/-- `EnvelopeGenerator::evaluate`: full envelope value at `time_since_on`
with an optional `time_since_off` (release). -/
def EnvelopeGenerator.evaluate (eg : EnvelopeGenerator) (time_since_on : ℝ)
    (time_since_off : Option ℝ) : ℝ :=
  match time_since_off with
  | some toff =>
    if eg.release ≤ EPSILON ∨ eg.release ≤ toff then 0
    else
      let value_at_release_start := eg.evaluate_non_release (time_since_on - toff)
      value_at_release_start * eg.apply_curve_decay_release (toff / eg.release)
  | none => eg.evaluate_non_release time_since_on

/-- `EnvelopeGenerator::finished`. -/
def EnvelopeGenerator.finished (eg : EnvelopeGenerator) (time_since_off : Option ℝ) : Prop :=
  match time_since_off with
  | some toff => eg.release ≤ toff
  | none => False

/-! ## Waveforms (`src/synth/waveform.rs`) -/

/-- `Waveform` (from `src/synth/waveform.rs`). -/
inductive Waveform where
  | Sine | Square | Sawtooth | SawtoothSmooth | Triangle | Noise | Input
deriving DecidableEq

/-- `WaveformGenerator`. -/
structure WaveformGenerator where
  waveform : Waveform

/-- `TAU = 2π` (the `f32` constant, modelled exactly). -/
def TAU : ℝ := 2 * Real.pi

/-- `WaveformGenerator::evaluate`.  `rng42` models the native
`random_range` helper, which reconstructs a `SmallRng` from the constant
seed 42 on every call and therefore returns one fixed value for each
`(min, max)` pair. -/
def WaveformGenerator.evaluate (rng42 : ℝ → ℝ → ℝ) (wg : WaveformGenerator) (phase : ℝ) : ℝ :=
  match wg.waveform with
  | .Sine => Real.sin phase
  | .Square => if 0 ≤ Real.sin phase then 1 else -1
  | .Sawtooth => 2 * (phase / (2 * Real.pi) - ⌊phase / (2 * Real.pi) + 0.5⌋)
  | .SawtoothSmooth => 0.75 * Real.sin phase / (1.25 + Real.cos phase)
  | .Triangle => 2 / Real.pi * Real.arcsin (Real.sin phase)
  | .Noise => rng42 (-1) 1
  | .Input => 0

/-! ## Filters (`src/synth/filter.rs`) -/

/-- `FilterType`. -/
inductive FilterType where
  | LowPassBiquad | Comb | PitchedComb
deriving DecidableEq

/-- `BiquadState`. -/
structure BiquadState where
  x1 : ℝ
  x2 : ℝ
  y1 : ℝ
  y2 : ℝ

/-- `LowPassBiquadState`: precomputed coefficients plus the Direct-Form-I
history. -/
structure LowPassBiquadState where
  cutoff : ℝ
  q : ℝ
  b0 : ℝ
  b1 : ℝ
  b2 : ℝ
  a1 : ℝ
  a2 : ℝ
  state : BiquadState

/-- `CombState`: circular delay buffer with feedback coefficient. -/
structure CombState where
  alpha : ℝ
  k : ℕ
  ys : List ℝ
  ys_index : ℕ

/-- `PitchedCombState`. -/
structure PitchedCombState where
  comb_state : CombState

/-- `Filter` (tagged union of the three filter kinds). -/
inductive Filter where
  | LowPassBiquad (s : LowPassBiquadState)
  | Comb (s : CombState)
  | PitchedComb (s : PitchedCombState)

/-- `Filter::get_type`. -/
def Filter.get_type : Filter → FilterType
  | .LowPassBiquad _ => .LowPassBiquad
  | .Comb _ => .Comb
  | .PitchedComb _ => .PitchedComb

/-- `CombState::new`. -/
def CombState.new (alpha : ℝ) (k : ℕ) : CombState :=
  { alpha := alpha, k := k, ys := List.replicate k 0, ys_index := 0 }

/-- `Vec::resize(n, v)`. -/
def listResize (l : List ℝ) (n : ℕ) (v : ℝ) : List ℝ :=
  l.take n ++ List.replicate (n - l.length) v

/-- `CombState::update_k`: clamps the delay length at 1 but (as in the
source) resizes the buffer to the *argument* `k`. -/
def CombState.update_k (s : CombState) (k : ℕ) : CombState :=
  { s with k := if 0 < k then k else 1, ys := listResize s.ys k 0, ys_index := 0 }

/-- `CombState::reset`. -/
def CombState.reset (s : CombState) : CombState :=
  { s with ys := List.replicate s.ys.length 0, ys_index := 0 }

/-- `FilterState::process` for `CombState`: `y = x + α·buf[i]; buf[i] = y;
i = (i+1) mod k`. -/
def CombState.process (s : CombState) (input : ℝ) : ℝ × CombState :=
  let output := input + s.alpha * s.ys.getD s.ys_index 0
  (output, { s with ys := s.ys.set s.ys_index output, ys_index := (s.ys_index + 1) % s.k })

/-- `FilterState::process` for `LowPassBiquadState` (Direct Form I). -/
def LowPassBiquadState.process (s : LowPassBiquadState) (input : ℝ) : ℝ × LowPassBiquadState :=
  let output := s.b0 * input + s.b1 * s.state.x1 + s.b2 * s.state.x2
    - s.a1 * s.state.y1 - s.a2 * s.state.y2
  (output, { s with state := { x1 := input, x2 := s.state.x1, y1 := output, y2 := s.state.y1 } })

/-- `PitchedCombState::update_k_frequency`: retune the delay length to
`round(sample_rate / frequency)`. -/
def PitchedCombState.update_k_frequency (s : PitchedCombState) (sample_rate frequency : ℝ) :
    PitchedCombState :=
  { comb_state := s.comb_state.update_k (round (sample_rate / frequency)).toNat }

/-- `FilterState::process` for `PitchedCombState` (Karplus–Strong comb with
2-tap averaging).  The non-finite safety reset of the source is
unreachable in the real-number model (every `ℝ` is finite) and is omitted. -/
def PitchedCombState.process (s : PitchedCombState) (input : ℝ) : ℝ × PitchedCombState :=
  let st := s.comb_state
  let k := st.k
  if k = 0 ∨ st.ys.length ≠ k then (input, s)
  else
    let idx := if k ≤ st.ys_index then 0 else st.ys_index
    let current_delayed := st.ys.getD idx 0
    let loop_signal := input + st.alpha * current_delayed
    let prev_written_value := st.ys.getD ((idx + k - 1) % k) 0
    let output := (loop_signal + prev_written_value) * 0.5
    (output, { comb_state :=
      { st with ys := st.ys.set idx output, ys_index := (idx + 1) % k } })

/-- `Filter::process`, returning the sample and the updated filter. -/
def Filter.process : Filter → ℝ → ℝ × Filter
  | .LowPassBiquad s, x => let p := s.process x; (p.1, .LowPassBiquad p.2)
  | .Comb s, x => let p := s.process x; (p.1, .Comb p.2)
  | .PitchedComb s, x => let p := s.process x; (p.1, .PitchedComb p.2)

/-- The filter-chain fold of `Operator::process`
(`chain.iter_mut().fold(raw, |acc, f| f.process(acc))`), with the updated
chain returned. -/
def runChain : List Filter → ℝ → ℝ × List Filter
  | [], x => (x, [])
  | f :: fs, x =>
    let p := f.process x
    let q := runChain fs p.1
    (q.1, p.2 :: q.2)

/-- `runChain` lifted to the optional filter chain of an operator state
(`None` means no filtering). -/
def runChainO : Option (List Filter) → ℝ → ℝ × Option (List Filter)
  | none, x => (x, none)
  | some ch, x => let p := runChain ch x; (p.1, some p.2)

/-! ## Operators (`src/synth/operator.rs`) and the processing context
(`src/synth/context.rs`) -/

/-- `RATIO_SMOOTHING_FACTOR`. -/
def RATIO_SMOOTHING_FACTOR : ℝ := 0.001

/-- `MODULATION_INDEX_SMOOTHING_FACTOR`. -/
def MODULATION_INDEX_SMOOTHING_FACTOR : ℝ := 0.001

/-- `OperatorState` (per voice, per plan node). -/
structure OperatorState where
  current_phase : ℝ
  current_ratio : Option ℝ
  current_modulation_index : Option ℝ
  filters : Option (List Filter)

/-- `OperatorState::default()`. -/
def OperatorState.default : OperatorState :=
  { current_phase := 0, current_ratio := none, current_modulation_index := none,
    filters := none }

/-- `Operator` (immutable parameter bundle). -/
structure Operator where
  waveform_generator : WaveformGenerator
  frequency_ratio : ℝ
  fixed_frequency : Option ℝ
  envelope : EnvelopeGenerator
  modulation_index : ℝ
  gain : ℝ
  filters : Option (List Filter)

/-- `ProcessContext` (from `src/synth/context.rs`). -/
structure ProcessContext where
  sample_rate : ℝ
  base_frequency : ℝ
  velocity_scale : ℝ
  samples_elapsed_since_trigger : ℕ
  note_off_sample_index : Option ℕ
  operators : List Operator

/-- Rust `f32` remainder (`%`): truncated division remainder,
`x - y * trunc(x / y)`. -/
def rustRem (x y : ℝ) : ℝ :=
  x - y * (if 0 ≤ x / y then ((⌊x / y⌋ : ℤ) : ℝ) else ((⌈x / y⌉ : ℤ) : ℝ))

/-- `Operator::manage_filter_states`: on the first buffer of a note
(`samples_elapsed_since_trigger == 0`) the operator's filter template is
cloned into the state and any `PitchedComb` is retuned to the voice's base
frequency scaled by the current smoothed ratio. -/
def Operator.manage_filter_states (op : Operator) (state : OperatorState)
    (ctx : ProcessContext) : OperatorState :=
  if ctx.samples_elapsed_since_trigger = 0 then
    { state with filters := (op.filters.map (fun chain => chain.map (fun f =>
        match f with
        | .PitchedComb s =>
          .PitchedComb (s.update_k_frequency ctx.sample_rate
            (ctx.base_frequency * state.current_ratio.getD 1))
        | f => f))) }
  else state

/-- The per-sample loop of `Operator::process`, threading the local smoothed
ratio and modulation index, the phase and the filter chain through the
buffer.  `k` is the index of the current sample inside the block.  Returns
the final `(ratio, modulation index, phase, filters)` and the produced
output samples. -/
def Operator.processLoop (rng42 : ℝ → ℝ → ℝ) (op : Operator) (ctx : ProcessContext) :
    List ℝ → ℕ → ℝ → ℝ → ℝ → Option (List Filter) →
    ℝ × ℝ × ℝ × Option (List Filter) × List ℝ
  | [], _, r, mi, phase, filters => (r, mi, phase, filters, [])
  | m :: rest, k, r, mi, phase, filters =>
    let r' := r + (op.frequency_ratio - r) * RATIO_SMOOTHING_FACTOR
    let mi' := mi + (op.modulation_index - mi) * MODULATION_INDEX_SMOOTHING_FACTOR
    let actual_frequency := op.fixed_frequency.getD (ctx.base_frequency * r')
    let phase1 := rustRem (phase + TAU * actual_frequency / ctx.sample_rate) TAU
    let wave := if op.waveform_generator.waveform = Waveform.Input then m
      else op.waveform_generator.evaluate rng42 (phase1 + m)
    let time_since_on := ((ctx.samples_elapsed_since_trigger + k : ℕ) : ℝ) / ctx.sample_rate
    let time_since_off := ctx.note_off_sample_index.map
      (fun off => ((ctx.samples_elapsed_since_trigger + k - off : ℕ) : ℝ) / ctx.sample_rate)
    let raw_output := wave * mi'
    let p := runChainO filters raw_output
    let env := op.envelope.evaluate time_since_on time_since_off
    let outK := p.1 * env * op.gain
    let res := Operator.processLoop rng42 op ctx rest (k + 1) r' mi' phase1 p.2
    (res.1, res.2.1, res.2.2.1, res.2.2.2.1, outK :: res.2.2.2.2)

/-- `Operator::process`: produce one block of audio from one block of
modulation.  Returns the updated state and the (re)written output buffer;
on the early-return guard the state and buffer are returned untouched. -/
def Operator.process (rng42 : ℝ → ℝ → ℝ) (op : Operator) (ctx : ProcessContext)
    (modulation : List ℝ) (state : OperatorState) (output : List ℝ) :
    OperatorState × List ℝ :=
  if output.length = 0 ∨ modulation.length ≠ output.length then (state, output)
  else
    let ratio0 := state.current_ratio.getD op.frequency_ratio
    let mi0 := state.current_modulation_index.getD op.modulation_index
    let state1 := { state with current_ratio := some ratio0,
                               current_modulation_index := some mi0 }
    let state2 := op.manage_filter_states state1 ctx
    let res := op.processLoop rng42 ctx modulation 0 ratio0 mi0 state2.current_phase state2.filters
    ({ current_phase := res.2.2.1, current_ratio := some res.1,
       current_modulation_index := some res.2.1, filters := res.2.2.2.1 },
     res.2.2.2.2)

/-- `EnvelopeGenerator::default()` (`new`): note that
`calculate_curve_params` is run, so the blend factor is `curve / 10`. -/
def EnvelopeGenerator.defaultEnv : EnvelopeGenerator :=
  { attack := 0.001, decay := 1, sustain := 0.6, release := 0.1, curve := 6,
    curve_blend_factor := 6 / 10 }

/-- `Operator::default()`. -/
def Operator.defaultOp : Operator :=
  { waveform_generator := ⟨.Sine⟩, frequency_ratio := 1, fixed_frequency := none,
    envelope := EnvelopeGenerator.defaultEnv, modulation_index := 1, gain := 1,
    filters := none }

/-! ## The plan executor (`Algorithm::process` and
`Algorithm::evaluate_node_recursive`) -/

/-- The mutable state threaded through `Algorithm::process`: the per-node
operator states, the per-node scratch buffers and the visited flags. -/
structure EvalState where
  node_states : List OperatorState
  scratch : List (List ℝ)
  visited : List Bool

/-- The input loop of `Algorithm::evaluate_node_recursive`: for every input
node index, recursively evaluate it (via `step`, the recursive evaluator one
fuel level down) and accumulate its scaled, envelope-weighted output into the
local modulation buffer.  The contribution is skipped when the matrix holds
no connection for the `(source op, target op)` pair. -/
def evalInputsGo (alg : Algorithm) (ctx : ProcessContext)
    (step : ℕ → EvalState → EvalState) (tgtOp : ℕ) :
    List ℕ → EvalState → List ℝ → EvalState × List ℝ
  | [], st, modInput => (st, modInput)
  | inputIdx :: rest, st, modInput =>
    let st' := step inputIdx st
    let input_output := st'.scratch.getD inputIdx []
    let srcOp := (alg.unrolled_nodes.getD inputIdx ⟨0, []⟩).original_op_index
    let modInput' :=
      match (alg.matrix.get? srcOp).bind (fun row => row.get? tgtOp) with
      | some (some conn) =>
        mapIdxFrom 0 (fun i x =>
          let time_on := ((ctx.samples_elapsed_since_trigger + i : ℕ) : ℝ) / ctx.sample_rate
          let time_off := ctx.note_off_sample_index.map
            (fun n => ((n + i : ℕ) : ℝ) / ctx.sample_rate)
          let env_value :=
            match conn.modulation_envelope with
            | some e => e.evaluate time_on time_off
            | none => 1
          x + input_output.getD i 0 * conn.scale * env_value) modInput
      | _ => modInput
    evalInputsGo alg ctx step tgtOp rest st' modInput'

/-- `Algorithm::evaluate_node_recursive`: skip if already visited, otherwise
evaluate all inputs first, combine them into the modulation buffer, run the
node's operator, store its output in the node's scratch buffer and mark the
node visited.  `fuel` bounds the recursion depth (the source relies on plan
acyclicity; `Algorithm.process` passes `plan length + 1`, enough for any
acyclic plan). -/
def evalNodeRec (rng42 : ℝ → ℝ → ℝ) (alg : Algorithm) (ctx : ProcessContext) :
    ℕ → ℕ → EvalState → EvalState
  | 0, _, st => st
  | fuel + 1, node_idx, st =>
    if st.visited.getD node_idx true then st
    else
      let node := alg.unrolled_nodes.getD node_idx ⟨0, []⟩
      let buffer_size := (st.scratch.getD node_idx []).length
      let r := evalInputsGo alg ctx (fun j st => evalNodeRec rng42 alg ctx fuel j st)
        node.original_op_index node.input_node_indices st (List.replicate buffer_size 0)
      let operator := ctx.operators.getD node.original_op_index Operator.defaultOp
      let pr := operator.process rng42 ctx r.2 (r.1.node_states.getD node_idx OperatorState.default)
        (r.1.scratch.getD node_idx [])
      { node_states := r.1.node_states.set node_idx pr.1,
        scratch := r.1.scratch.set node_idx pr.2,
        visited := r.1.visited.set node_idx true }

/-- `Algorithm::process`: the plan executor.  On the early-return guard
(empty buffer, empty operator table, matrix/operator-count mismatch, empty
plan, or state-count mismatch) the states and the output buffer are returned
untouched.  Otherwise all plan nodes are evaluated into per-node scratch
buffers and the first plan node of each carrier operator is summed into the
(cleared) output buffer. -/
def Algorithm.process (rng42 : ℝ → ℝ → ℝ) (alg : Algorithm) (ctx : ProcessContext)
    (node_states : List OperatorState) (output : List ℝ) :
    List OperatorState × List ℝ :=
  let buffer_size := output.length
  if buffer_size = 0 ∨ ctx.operators.length = 0 ∨ alg.matrix.length ≠ ctx.operators.length
      ∨ alg.unrolled_nodes.length = 0 ∨ node_states.length ≠ alg.unrolled_nodes.length then
    (node_states, output)
  else
    let st0 : EvalState :=
      { node_states := node_states,
        scratch := alg.unrolled_nodes.map (fun _ => List.replicate buffer_size 0),
        visited := alg.unrolled_nodes.map (fun _ => false) }
    let st1 := (List.range alg.unrolled_nodes.length).foldl
      (fun st idx => evalNodeRec rng42 alg ctx (alg.unrolled_nodes.length + 1) idx st) st0
    let outF := alg.carriers.foldl (fun out c =>
      match alg.unrolled_nodes.findIdx? (fun n => n.original_op_index = c) with
      | some nidx => mapIdxFrom 0 (fun i x => x + (st1.scratch.getD nidx []).getD i 0) out
      | none => out) (List.replicate buffer_size (0 : ℝ))
    (st1.node_states, outF)

/-! ## Voices (`src/synth/voice.rs`, `src/synth/voice_config.rs`) and the
synth facade (`src/synth/core.rs`) -/

/-- Modelled from the spec: `NoteSource` (from the repository's `note.rs`,
which is declared in `synth/mod.rs` but not present under `src/`): the
origin tag of a note event, so "a keyboard and a MIDI port can both drive
the same engine without cross-cancellation". -/
inductive NoteSource where
  | Keyboard | Midi
deriving DecidableEq

/-- `VoiceConfig` (from `src/synth/voice_config.rs`). -/
structure VoiceConfig where
  attack : ℝ
  decay : ℝ
  sustain : ℝ
  release : ℝ
  velocity_sensitive_envelope : Bool
  velocity_sensitive_curve : ℝ

/-- `VoiceConfig::default()`. -/
def VoiceConfig.defaultCfg : VoiceConfig :=
  { attack := 0.01, decay := 0.1, sustain := 0.8, release := 0.3,
    velocity_sensitive_envelope := true, velocity_sensitive_curve := 1.5 }

/-- `VoiceConfig::velocity_to_scale`. -/
def VoiceConfig.velocity_to_scale (cfg : VoiceConfig) (velocity : ℕ) : ℝ :=
  let vel : ℕ := if cfg.velocity_sensitive_envelope then min (max velocity 1) 127 else 100
  ((vel : ℝ) / 127) ^ cfg.velocity_sensitive_curve

/-- `Voice` (from `src/synth/voice.rs`). -/
structure Voice where
  operator_states : List OperatorState
  active : Bool
  releasing : Bool
  note_number : ℕ
  note_frequency : ℝ
  note_velocity : ℕ
  note_source : Option NoteSource
  velocity_scale : ℝ
  envelope : EnvelopeGenerator
  samples_elapsed_since_trigger : ℕ
  note_off_sample_index : Option ℕ
  config : VoiceConfig

/-- `Voice::reset`: fully resets the voice to an inactive state (the
`config` field is not touched by `reset`). -/
def Voice.reset (v : Voice) : Voice :=
  { v with active := false, releasing := false, note_number := 0, note_frequency := 0,
           note_velocity := 0, velocity_scale := 0, note_source := none,
           samples_elapsed_since_trigger := 0, note_off_sample_index := none,
           operator_states := v.operator_states.map (fun _ => OperatorState.default) }

/-- `Voice::is_finished`: the voice is finished when it has been released
and its main envelope evaluates to exactly 0. -/
def Voice.is_finished (v : Voice) (sample_rate : ℝ) : Bool :=
  match v.note_off_sample_index with
  | some note_off_sample_index =>
    decide (v.envelope.evaluate ((v.samples_elapsed_since_trigger : ℝ) / sample_rate)
      (some (((v.samples_elapsed_since_trigger - note_off_sample_index : ℕ) : ℝ) / sample_rate)) = 0)
  | none => false

/-- `Voice::process`: render one block for this voice.  The raw plan output
is generated into a zeroed temporary buffer, the per-voice envelope and
velocity scale are applied, and the result is *added* to the output buffer.
(The call into the plan executor is written in `voice.rs` against an older
argument-list signature of `Algorithm::process`; it is bridged here to the
`ProcessContext` signature that `algorithm.rs` actually defines, passing the
same data those arguments carry.) -/
def Voice.process (rng42 : ℝ → ℝ → ℝ) (v : Voice) (algorithm : Algorithm)
    (operators : List Operator) (output : List ℝ) (sample_rate : ℝ) : Voice × List ℝ :=
  if v.is_finished sample_rate then (v.reset, output)
  else if output.length = 0 then (v, output)
  else
    let buffer_len := output.length
    let start_sample_index := v.samples_elapsed_since_trigger
    let ctx : ProcessContext :=
      { sample_rate := sample_rate, base_frequency := v.note_frequency,
        velocity_scale := v.velocity_scale,
        samples_elapsed_since_trigger := start_sample_index,
        note_off_sample_index := v.note_off_sample_index, operators := operators }
    let pr := Algorithm.process rng42 algorithm ctx v.operator_states
      (List.replicate buffer_len 0)
    let raw_output := pr.2
    let output' := mapIdxFrom 0 (fun i x =>
      let time_since_on := ((start_sample_index + i : ℕ) : ℝ) / sample_rate
      let time_since_off := v.note_off_sample_index.map
        (fun off => ((start_sample_index + i - off : ℕ) : ℝ) / sample_rate)
      let env_value := v.velocity_scale * v.envelope.evaluate time_since_on time_since_off
      x + raw_output.getD i 0 * env_value) output
    let v' := { v with operator_states := pr.1,
                       samples_elapsed_since_trigger := start_sample_index + buffer_len }
    if v'.releasing ∧ v'.is_finished sample_rate then (v'.reset, output') else (v', output')

/-- Modelled from the spec: `SynthConfig` (from the repository's
`config.rs`, declared in `synth/mod.rs` but not present under `src/`): the
engine's construction-time sizes — the operator table size N and the voice
pool size P. -/
structure SynthConfig where
  operators_per_voice : ℕ
  max_voices : ℕ

/-- `Synth` (from `src/synth/core.rs`). -/
structure Synth where
  voices : List Voice
  config : SynthConfig
  voice_config : VoiceConfig
  algorithm : Algorithm
  operators : List Operator
  master_volume : ℝ
  current_gain : ℝ
  buffer_size : ℕ

/-- `Synth::process_voices`: render every active voice into a fresh zeroed
buffer, accumulating each voice's mean-squared energy; inactive voices are
skipped and produce no buffer. -/
def Synth.process_voices (rng42 : ℝ → ℝ → ℝ) (s : Synth) (buffer_size : ℕ)
    (sample_rate : ℝ) : Synth × ℝ × List (List ℝ) :=
  let step := s.voices.foldl (fun (acc : List Voice × ℝ × List (List ℝ)) v =>
    if v.active then
      let pr := v.process rng42 s.algorithm s.operators (List.replicate buffer_size 0) sample_rate
      let energy := ((pr.2.map (fun x => x * x)).sum) / (buffer_size : ℝ)
      (acc.1 ++ [pr.1], acc.2.1 + energy, acc.2.2 ++ [pr.2])
    else (acc.1 ++ [v], acc.2.1, acc.2.2)) ([], 0, [])
  ({ s with voices := step.1 }, step.2.1, step.2.2)

/-- `Synth::mix_and_apply_gain`: clear the output, mix the voice buffers
into it, then apply the target gain with a cubic-eased crossfade from the
previous gain over the first few samples. -/
def Synth.mix_and_apply_gain (s : Synth) (output : List ℝ)
    (voice_buffers : List (List ℝ)) (target_gain sample_rate : ℝ) : Synth × List ℝ :=
  let buffer_len := output.length
  let mixed := voice_buffers.foldl
    (fun out buf => mapIdxFrom 0 (fun i x => x + buf.getD i 0) out)
    (List.replicate buffer_len (0 : ℝ))
  let gain_ratio_abs := if 1e-9 < |s.current_gain| then |target_gain / s.current_gain| else 1
  let gain_change_factor := min |1 - gain_ratio_abs| 1
  let crossfade_ms := 5 * gain_change_factor + 5
  let crossfade_samples := min (round (crossfade_ms / 1000 * sample_rate)).toNat buffer_len
  let inv_crossfade_len := if 0 < crossfade_samples then 1 / (crossfade_samples : ℝ) else 0
  let final := mapIdxFrom 0 (fun i x =>
    let gain :=
      if i < crossfade_samples then
        let t := ((i + 1 : ℕ) : ℝ) * inv_crossfade_len
        let smooth_t := t * t * (3 - 2 * t)
        s.current_gain * (1 - smooth_t) + target_gain * smooth_t
      else target_gain
    x * gain) mixed
  ({ s with current_gain := target_gain }, final)

/-- `Synth::apply_limiter`: soft-knee limiter above 0.9. -/
def Synth.apply_limiter (output : List ℝ) : List ℝ :=
  output.map (fun sample =>
    if 0.9 < |sample| then sample * max (1.9 - |sample|) 0 else sample)

/-- `Synth::process`: the block-render entry point — render the voices,
derive the energy-compensated target gain, mix + apply gain, then limit. -/
def Synth.process (rng42 : ℝ → ℝ → ℝ) (s : Synth) (output : List ℝ)
    (sample_rate : ℝ) : Synth × List ℝ :=
  let pv := s.process_voices rng42 output.length sample_rate
  let total_energy := pv.2.1
  let energy_gain := if 1e-9 < total_energy then (1 + Real.sqrt total_energy * 2.5)⁻¹ else 1
  let target_gain := energy_gain * pv.1.master_volume
  let mx := pv.1.mix_and_apply_gain output pv.2.2 target_gain sample_rate
  (mx.1, Synth.apply_limiter mx.2)

end

/-! ## Concrete instances used by several claims -/

/-- The one-operator algorithm produced by `Algorithm::default_simple(1)`:
all-`None` 1×1 matrix, carrier 0, trivial one-node plan. -/
def demoAlg0 : Algorithm :=
  { matrix := [[none]], carriers := [0], repeat_rules := [],
    unrolled_nodes := [⟨0, []⟩] }

/-- The algorithm after `set_matrix(&[[1, 1]])` on `demoAlg0`: operator 0
modulates itself and is the carrier; the self-loop is unrolled to the two
chained plan nodes asserted by the in-module test
`test_simple_self_feedback`. -/
def demoAlg1 : Algorithm :=
  { matrix := [[some ConnectionParams.default]], carriers := [0], repeat_rules := [],
    unrolled_nodes := [⟨0, [1]⟩, ⟨0, []⟩] }

/-- The algorithm after a further `set_matrix(&[[0, 0]])` (all-zero carrier
column) on `demoAlg1`: the carriers and the plan are wiped out. -/
def demoAlg2 : Algorithm :=
  { matrix := [[none]], carriers := [], repeat_rules := [], unrolled_nodes := [] }

/-- A concrete synth whose compiled plan is empty (used as the C5 witness
instance). -/
noncomputable def demoSynthEmpty : Synth :=
  { voices := [], config := ⟨1, 1⟩, voice_config := VoiceConfig.defaultCfg,
    algorithm := demoAlg2, operators := [Operator.defaultOp], master_volume := 0.65,
    current_gain := 0.65, buffer_size := 1024 }

noncomputable section

/-- The fixed function modelling `random_range` (any value works for the
claims that use it; the `Noise` waveform is never exercised by them). -/
def rngZero : ℝ → ℝ → ℝ := fun _ _ => 0

/-- The per-sample envelope value of `Operator::process` at block offset
`k`: time since note-on is `(samples_since_trigger + k) / sr`, time since
note-off is derived from the note-off sample index by saturating
subtraction. -/
def envAt (op : Operator) (ctx : ProcessContext) (k : ℕ) : ℝ :=
  op.envelope.evaluate
    (((ctx.samples_elapsed_since_trigger + k : ℕ) : ℝ) / ctx.sample_rate)
    (ctx.note_off_sample_index.map
      (fun off => ((ctx.samples_elapsed_since_trigger + k - off : ℕ) : ℝ) / ctx.sample_rate))

/-- Running the (optional) per-voice filter chain statefully over a whole
sample sequence, in list order, sample by sample. -/
def chainOutsO : Option (List Filter) → List ℝ → List ℝ
  | _, [] => []
  | fil, x :: xs =>
    let p := runChainO fil x
    p.1 :: chainOutsO p.2 xs

/-- The sequence of smoothed-modulation-index-scaled waveform samples
`wave_k · m̂_k` produced by the per-sample loop of `Operator::process`,
starting from smoothed ratio `r`, smoothed modulation index `mi` and phase
`phase`. -/
def scaledWaveList (rng42 : ℝ → ℝ → ℝ) (op : Operator) (ctx : ProcessContext) :
    List ℝ → ℝ → ℝ → ℝ → List ℝ
  | [], _, _, _ => []
  | m :: rest, r, mi, phase =>
    let r' := r + (op.frequency_ratio - r) * RATIO_SMOOTHING_FACTOR
    let mi' := mi + (op.modulation_index - mi) * MODULATION_INDEX_SMOOTHING_FACTOR
    let actual_frequency := op.fixed_frequency.getD (ctx.base_frequency * r')
    let phase1 := rustRem (phase + TAU * actual_frequency / ctx.sample_rate) TAU
    let wave := if op.waveform_generator.waveform = Waveform.Input then m
      else op.waveform_generator.evaluate rng42 (phase1 + m)
    wave * mi' :: scaledWaveList rng42 op ctx rest r' mi' phase1

/-- The emission formula asserted by the claim, as a per-sample loop: the
filter chain is applied to the *unscaled* waveform sample, and the smoothed
modulation index scales the already-filtered wave:
`out[k] = wave_filtered · m̂ · env · P.gain`.  Everything else (smoothing,
frequency, phase, envelope, chain state threading) is as in
`Operator::processLoop`. -/
def operatorClaimLoop (rng42 : ℝ → ℝ → ℝ) (op : Operator) (ctx : ProcessContext) :
    List ℝ → ℕ → ℝ → ℝ → ℝ → Option (List Filter) →
    ℝ × ℝ × ℝ × Option (List Filter) × List ℝ
  | [], _, r, mi, phase, filters => (r, mi, phase, filters, [])
  | m :: rest, k, r, mi, phase, filters =>
    let r' := r + (op.frequency_ratio - r) * RATIO_SMOOTHING_FACTOR
    let mi' := mi + (op.modulation_index - mi) * MODULATION_INDEX_SMOOTHING_FACTOR
    let actual_frequency := op.fixed_frequency.getD (ctx.base_frequency * r')
    let phase1 := rustRem (phase + TAU * actual_frequency / ctx.sample_rate) TAU
    let wave := if op.waveform_generator.waveform = Waveform.Input then m
      else op.waveform_generator.evaluate rng42 (phase1 + m)
    let time_since_on := ((ctx.samples_elapsed_since_trigger + k : ℕ) : ℝ) / ctx.sample_rate
    let time_since_off := ctx.note_off_sample_index.map
      (fun off => ((ctx.samples_elapsed_since_trigger + k - off : ℕ) : ℝ) / ctx.sample_rate)
    let p := runChainO filters wave
    let env := op.envelope.evaluate time_since_on time_since_off
    let outK := p.1 * mi' * env * op.gain
    let res := operatorClaimLoop rng42 op ctx rest (k + 1) r' mi' phase1 p.2
    (res.1, res.2.1, res.2.2.1, res.2.2.2.1, outK :: res.2.2.2.2)

/-- `Operator::process` as the claim describes its emission: identical
preamble (state seeding and note-on filter cloning), but with the claim's
emit formula (`operatorClaimLoop`). -/
def operatorClaimOutput (rng42 : ℝ → ℝ → ℝ) (op : Operator) (ctx : ProcessContext)
    (modulation : List ℝ) (state : OperatorState) (output : List ℝ) : List ℝ :=
  if output.length = 0 ∨ modulation.length ≠ output.length then output
  else
    let ratio0 := state.current_ratio.getD op.frequency_ratio
    let mi0 := state.current_modulation_index.getD op.modulation_index
    let state1 := { state with current_ratio := some ratio0,
                               current_modulation_index := some mi0 }
    let state2 := op.manage_filter_states state1 ctx
    (operatorClaimLoop rng42 op ctx modulation 0 ratio0 mi0 state2.current_phase
      state2.filters).2.2.2.2

/-- The concrete operator of the C6 counterexample: `Input` waveform (a pure
modulation pass-through, so all arithmetic is rational), a one-tap comb
filter with α = 1, modulation-index target 0, flat envelope at sustain 1,
gain 1. -/
def ceOp : Operator :=
  { waveform_generator := ⟨.Input⟩, frequency_ratio := 1, fixed_frequency := none,
    envelope := ⟨0, 0, 1, 0, 0, 0⟩, modulation_index := 0, gain := 1,
    filters := some [Filter.Comb (CombState.new 1 1)] }

/-- The concrete state of the C6 counterexample: the smoothed modulation
index starts at 1 (as after an earlier block rendered with modulation index
1, before the UI dropped it to 0), so `m̂` varies across the block. -/
def ceState : OperatorState :=
  { current_phase := 0, current_ratio := some 1, current_modulation_index := some 1,
    filters := none }

/-- The concrete context of the C6 counterexample (sample rate 1, first
block of the note, no note-off). -/
def ceCtx : ProcessContext :=
  { sample_rate := 1, base_frequency := 0, velocity_scale := 1,
    samples_elapsed_since_trigger := 0, note_off_sample_index := none, operators := [] }

end

/-- The ordering invariant of compiled plans: every input of every node
points strictly later in the plan (and stays in bounds). -/
def PlanOrdered (nodes : List UnrolledNode) : Prop :=
  ∀ j nd, nodes[j]? = some nd → ∀ inp ∈ nd.input_node_indices, j < inp ∧ inp < nodes.length

/-- Specification of one recursive builder step, as used by the input loop:
it only appends nodes, a returned root index is the first appended position,
and every appended node's inputs point strictly later and stay in bounds. -/
def StepOk (step : ℕ → List UnrolledNode → Except String (Option ℕ × List UnrolledNode)) : Prop :=
  ∀ s ns r ns', step s ns = .ok (r, ns') →
    ns.length ≤ ns'.length ∧
    (∀ j, j < ns.length → ns'[j]? = ns[j]?) ∧
    (∀ i, r = some i → i = ns.length ∧ ns.length < ns'.length) ∧
    (∀ j nd, ns.length ≤ j → ns'[j]? = some nd →
      ∀ inp ∈ nd.input_node_indices, j < inp ∧ inp < ns'.length)


/-! ### Auxiliary definitions for the analysis of the feedback pass -/

/-- The flattened list of all input references of a plan. -/
def allInputs (nodes : List UnrolledNode) : List ℕ :=
  (nodes.map (fun n => n.input_node_indices)).join

/-- Builder steps append a segment whose flattened input references are
duplicate-free (and a `none` result leaves the node list unchanged). -/
def StepSeg (step : ℕ → List UnrolledNode → Except String (Option ℕ × List UnrolledNode)) : Prop :=
  ∀ s ns r ns', step s ns = .ok (r, ns') →
    (∃ tail, ns' = ns ++ tail ∧ (allInputs tail).Nodup ∧
      (∀ x ∈ allInputs tail, ns.length < x ∧ x < ns'.length)) ∧
    (r = none → ns' = ns)

/-- The termination measure of the phase-1 duplication work list: pending
stack entries plus a budget for every not-yet-duplicated node of the initial
graph. -/
def sumUnvisited (initial : List UnrolledNode) (visited : List ℕ) : ℕ :=
  (((List.range initial.length).filter (fun o => o ∉ visited)).map
    (fun o => 1 + (initial.getD o ⟨0, []⟩).input_node_indices.length)).sum

/-- The loop invariant of the phase-1 duplication work list of a feedback
rule (`dupPhase1`), for duplication of the subgraph of `initial` rooted at
`to_node`, appending to a node list that extends `nodesBase`. -/
structure Dup1Inv (initial : List UnrolledNode) (to_node : ℕ) (nodesBase : List UnrolledNode)
    (stack visited : List ℕ) (dmap : List (ℕ × ℕ)) (nodes : List UnrolledNode) : Prop where
  vis_iff : ∀ x, x ∈ visited ↔ ∃ d, (x, d) ∈ dmap
  keys_nodup : List.Pairwise (fun a b => a.1 ≠ b.1) dmap
  vals_lt : List.Pairwise (fun a b => a.2 < b.2) dmap
  entries : ∀ p ∈ dmap, p.1 < initial.length ∧ to_node ≤ p.1 ∧ nodesBase.length ≤ p.2 ∧
    p.2 < nodes.length ∧
    nodes[p.2]? = some ⟨(initial.getD p.1 ⟨0, []⟩).original_op_index, []⟩
  stack_ok : ∀ s ∈ stack, s < initial.length ∧ to_node ≤ s ∧ s ∉ visited
  stack_nodup : stack.Nodup
  oblig : ∀ p ∈ dmap, ∀ inp ∈ (initial.getD p.1 ⟨0, []⟩).input_node_indices,
    (∃ d', (inp, d') ∈ dmap ∧ p.2 < d') ∨ inp ∈ stack
  origin : ∀ x, x ∈ stack ∨ x ∈ visited → x = to_node ∨
    ∃ q, q ∈ visited ∧ x ∈ (initial.getD q ⟨0, []⟩).input_node_indices
  base_len : nodesBase.length ≤ nodes.length
  base_pre : ∀ j, j < nodesBase.length → nodes[j]? = nodesBase[j]?
  appended : ∀ j, nodesBase.length ≤ j → j < nodes.length → ∃ o, (o, j) ∈ dmap

/-- The relinking rule of phase 2: an input that was duplicated in this pass
maps to its duplicate; otherwise it maps to its live counterpart if that is
in bounds, and is dropped otherwise. -/
def relink (mapping dmapAll : List (ℕ × ℕ)) (N : ℕ) (inp : ℕ) : Option ℕ :=
  match dmapAll.lookup inp with
  | some d => some d
  | none =>
    match mapping.lookup inp with
    | some cur => if cur < N then some cur else none
    | none => none

/-- Boundedness of a live-index mapping with respect to a node-list length. -/
def MappingBounded (m : List (ℕ × ℕ)) (n : ℕ) : Prop := ∀ p ∈ m, p.2 < n

/-! ## C2 — self-feedback unroll of the UI matrix `[[1,1]]` -/

/-- **C2.** Compiling the one-operator UI matrix `[[1,1]]` (operator 0
modulates itself and is the carrier) produces a plan of exactly 2 nodes,
both referring to operator 0: node 0 has the single input node 1, and node 1
has no inputs (the self-loop is unrolled to depth `MAX_CYCLE_DEPTH = 2`). -/
theorem set_matrix_self_feedback_unrolls_to_two_nodes :
    Algorithm.default_simple 1 = .ok demoAlg0 ∧
    Algorithm.set_matrix demoAlg0 [[1, 1]] = .ok demoAlg1 ∧
    demoAlg1.unrolled_nodes = [⟨0, [1]⟩, ⟨0, []⟩] ∧
    demoAlg1.unrolled_nodes.length = 2 ∧
    demoAlg1.carriers = [0] ∧
    MAX_CYCLE_DEPTH = 2 :=
  ⟨rfl, rfl, rfl, rfl, rfl, rfl⟩

/-! ## C4 — `set_matrix` with an all-zero carrier column -/

/-- **C4** (failing-input evaluation).  Contrary to the claim (and to the
comments inside `set_matrix` itself, which speak of a carrier check that
"validated non-empty" carriers), calling `set_matrix` with a UI matrix whose
carrier column is all zeros is *not* a no-op: it returns `Ok`, replaces the
carriers with the empty list, and recompiles the plan to the empty plan,
discarding the previous (non-empty) plan. -/
theorem set_matrix_zero_carrier_column_clears_plan :
    Algorithm.set_matrix demoAlg1 [[0, 0]] = .ok demoAlg2 ∧
    demoAlg2.carriers = [] ∧
    demoAlg2.unrolled_nodes = [] ∧
    demoAlg1.unrolled_nodes ≠ [] :=
  ⟨rfl, rfl, rfl, by decide⟩

/-! ## C9 — idempotence of `set_matrix` -/

theorem setMatrixCell_idem (ui : List (List ℕ)) (u n i j : ℕ)
    (c : Option ConnectionParams) :
    setMatrixCell ui u n i j (setMatrixCell ui u n i j c) = setMatrixCell ui u n i j c := by
  unfold setMatrixCell
  split_ifs with hj hij hv
  · cases c <;> rfl
  · rfl
  · rfl
  · rfl

theorem setMatrixUpdate_length (ui : List (List ℕ)) (u : ℕ) (m : ConnMatrix) :
    (setMatrixUpdate ui u m).length = m.length :=
  mapIdxFrom_length _ _ _

theorem setMatrixUpdate_idem (ui : List (List ℕ)) (u : ℕ) (m : ConnMatrix) :
    setMatrixUpdate ui u (setMatrixUpdate ui u m) = setMatrixUpdate ui u m := by
  conv_lhs => rw [setMatrixUpdate, setMatrixUpdate_length]
  rw [setMatrixUpdate, mapIdxFrom_mapIdxFrom]
  exact mapIdxFrom_congr _ _ _ _ (fun i row => by
    rw [mapIdxFrom_mapIdxFrom]
    exact mapIdxFrom_congr _ _ _ _ (fun j c => setMatrixCell_idem ui u m.length i j c))

/-- **C9.** Calling `set_matrix` twice in a row with the same UI matrix
yields identical compiled plans: the second call returns the very same
algorithm state (in particular the same plan-node sequence and the same
carrier list) as the first. -/
theorem set_matrix_idempotent (A : Algorithm) (ui : List (List ℕ)) (A1 : Algorithm)
    (h : A.set_matrix ui = .ok A1) : A1.set_matrix ui = .ok A1 := by
  unfold Algorithm.set_matrix at h ⊢
  by_cases hu : ui.length = 0
  · rw [if_pos hu] at h ⊢
  · rw [if_neg hu] at h ⊢
    cases h
    simp only [setMatrixUpdate_idem]

/-- Witness for C9 at the concrete UI matrix `[[1,1]]`. -/
theorem set_matrix_idempotent_witness :
    Algorithm.set_matrix demoAlg1 [[1, 1]] = .ok demoAlg1 :=
  set_matrix_idempotent demoAlg0 [[1, 1]] demoAlg1 rfl

/-! ## C8 — validation performed by `Algorithm::new` -/

theorem max?_ge_iff (l : List ℕ) (N : ℕ) :
    (∃ m, l.max? = some m ∧ N ≤ m) ↔ ∃ c ∈ l, N ≤ c := by
  constructor
  · rintro ⟨m, hm, hNm⟩
    obtain ⟨hmem, -⟩ := (List.max?_eq_some_iff'.1 hm : m ∈ l ∧ ∀ b ∈ l, b ≤ m)
    exact ⟨m, hmem, hNm⟩
  · rintro ⟨c, hc, hNc⟩
    cases hmax : l.max? with
    | none => exact absurd (List.max?_eq_none_iff.1 hmax ▸ hc) (List.not_mem_nil c)
    | some m =>
      obtain ⟨-, hle⟩ := (List.max?_eq_some_iff'.1 hmax : m ∈ l ∧ ∀ b ∈ l, b ≤ m)
      exact ⟨m, rfl, hNc.trans (hle c hc)⟩

/-- **C8.** `Algorithm::new(matrix, carriers)` returns an error if and only
if the matrix is not square (some row's length differs from the row count)
or some carrier index is `≥` the number of operators; in every other case
construction succeeds and the returned algorithm carries the given matrix
and carriers, no feedback rules, and the compiled plan. -/
theorem new_errors_iff_not_square_or_carrier_oob (matrix : ConnMatrix) (carriers : List ℕ) :
    ((∃ e, Algorithm.new matrix carriers = .error e) ↔
      (∃ row ∈ matrix, row.length ≠ matrix.length) ∨ (∃ c ∈ carriers, matrix.length ≤ c)) ∧
    (∀ A, Algorithm.new matrix carriers = .ok A →
      A.matrix = matrix ∧ A.carriers = carriers ∧ A.repeat_rules = [] ∧
      A.unrolled_nodes = rebuildNodes matrix carriers []) := by
  have hsq : (0 < matrix.length ∧ ¬ matrix.all (fun row => row.length = matrix.length) = true) ↔
      (∃ row ∈ matrix, row.length ≠ matrix.length) := by
    constructor
    · rintro ⟨-, hall⟩
      by_contra hno
      exact hall (List.all_eq_true.2 (fun row hrow => by
        by_contra hne
        exact hno ⟨row, hrow, by simpa using hne⟩))
    · rintro ⟨row, hrow, hne⟩
      refine ⟨List.length_pos.2 (List.ne_nil_of_mem hrow), fun hall => ?_⟩
      exact hne (by simpa using List.all_eq_true.1 hall row hrow)
  unfold Algorithm.new
  by_cases h1 : 0 < matrix.length ∧ ¬ matrix.all (fun row => row.length = matrix.length) = true
  · rw [if_pos h1]
    constructor
    · exact ⟨fun _ => Or.inl (hsq.1 h1), fun _ => ⟨_, rfl⟩⟩
    · intro A hA
      exact absurd hA (by simp)
  · rw [if_neg h1]
    have hsq' : ¬ ∃ row ∈ matrix, row.length ≠ matrix.length := fun hc => h1 (hsq.2 hc)
    cases hmax : carriers.max? with
    | none =>
      dsimp only
      have hnc : ¬ ∃ c ∈ carriers, matrix.length ≤ c := by
        rw [← max?_ge_iff]
        rintro ⟨m, hm, -⟩
        rw [hmax] at hm
        exact absurd hm (by simp)
      constructor
      · constructor
        · rintro ⟨e, he⟩
          exact absurd he (by simp)
        · rintro (h | h)
          · exact absurd h hsq'
          · exact absurd h hnc
      · intro A hA
        simp only [Except.ok.injEq] at hA
        exact hA ▸ ⟨rfl, rfl, rfl, rfl⟩
    | some m =>
      dsimp only
      by_cases hle : matrix.length ≤ m
      · rw [if_pos hle]
        constructor
        · exact ⟨fun _ => Or.inr (max?_ge_iff carriers matrix.length |>.1 ⟨m, hmax, hle⟩),
            fun _ => ⟨_, rfl⟩⟩
        · intro A hA
          exact absurd hA (by simp)
      · rw [if_neg hle]
        have hnc : ¬ ∃ c ∈ carriers, matrix.length ≤ c := by
          rw [← max?_ge_iff]
          rintro ⟨m', hm', hle'⟩
          rw [hmax] at hm'
          cases hm'
          exact hle hle'
        constructor
        · constructor
          · rintro ⟨e, he⟩
            exact absurd he (by simp)
          · rintro (h | h)
            · exact absurd h hsq'
            · exact absurd h hnc
        · intro A hA
          simp only [Except.ok.injEq] at hA
          exact hA ▸ ⟨rfl, rfl, rfl, rfl⟩

/-- Witness for C8 at a concrete successful construction
(`Algorithm::default_simple(1)`'s matrix and carriers). -/
theorem new_errors_iff_witness :
    demoAlg0.matrix = [[none]] ∧ demoAlg0.carriers = [0] ∧ demoAlg0.repeat_rules = [] ∧
    demoAlg0.unrolled_nodes = rebuildNodes [[none]] [0] [] :=
  (new_errors_iff_not_square_or_carrier_oob [[none]] [0]).2 demoAlg0 rfl

/-! ## C10 — the early-return guard of `Operator::process` -/

/-- **C10.** `Operator::process` called with an empty output buffer, or with
a modulation buffer whose length differs from the output buffer's length,
returns immediately: the output buffer is not written and the operator state
(phase, smoothed ratio, smoothed modulation index, filter chain) is returned
unchanged. -/
theorem operator_process_guard_no_op (rng42 : ℝ → ℝ → ℝ) (op : Operator)
    (ctx : ProcessContext) (modulation : List ℝ) (state : OperatorState)
    (output : List ℝ) (h : output.length = 0 ∨ modulation.length ≠ output.length) :
    Operator.process rng42 op ctx modulation state output = (state, output) := by
  unfold Operator.process
  rw [if_pos h]

/-- Witness for C10 at empty buffers. -/
theorem operator_process_guard_no_op_witness :
    Operator.process (fun _ _ => 0) Operator.defaultOp
      ⟨1, 0, 0, 0, none, []⟩ [] OperatorState.default [] = (OperatorState.default, []) :=
  operator_process_guard_no_op (fun _ _ => 0) Operator.defaultOp
    ⟨1, 0, 0, 0, none, []⟩ [] OperatorState.default [] (Or.inl rfl)

/-! ## C3 — determinism of `Algorithm::process` -/

/-- **C3.** The plan executor is deterministic: for a fixed operator table
(carried in the context), plan, context and starting node states, two calls
of `Algorithm::process` on equal inputs produce equal results — the same
output buffer and the same final states.  This holds for every operator
waveform, including `Noise`: the native `random_range` helper re-seeds a
fresh `SmallRng` with the constant 42 on every call, so it is the one fixed
function `rng42` on both sides. -/
theorem algorithm_process_deterministic (rng42 : ℝ → ℝ → ℝ) (alg : Algorithm)
    (ctx₁ ctx₂ : ProcessContext) (states₁ states₂ : List OperatorState)
    (out₁ out₂ : List ℝ) (hctx : ctx₁ = ctx₂) (hst : states₁ = states₂)
    (hout : out₁ = out₂) :
    Algorithm.process rng42 alg ctx₁ states₁ out₁ =
      Algorithm.process rng42 alg ctx₂ states₂ out₂ := by
  rw [hctx, hst, hout]

/-- Witness for C3 at a concrete one-operator self-feedback plan. -/
theorem algorithm_process_deterministic_witness :
    Algorithm.process (fun _ _ => 0) demoAlg1
      ⟨1, 440, 1, 0, none, [Operator.defaultOp]⟩
      [OperatorState.default, OperatorState.default] [0, 0] =
    Algorithm.process (fun _ _ => 0) demoAlg1
      ⟨1, 440, 1, 0, none, [Operator.defaultOp]⟩
      [OperatorState.default, OperatorState.default] [0, 0] :=
  algorithm_process_deterministic (fun _ _ => 0) demoAlg1 _ _ _ _ _ _ rfl rfl rfl

/-! ## C1 — ordering of plan-node inputs -/

theorem buildInputsGo_spec {step} (hstep : StepOk step) (matrix : ConnMatrix) (target : ℕ) :
    ∀ (sources acc : List ℕ) (nodes : List UnrolledNode) (acc' : List ℕ)
      (nodes' : List UnrolledNode),
      buildInputsGo step matrix target sources acc nodes = .ok (acc', nodes') →
      nodes.length ≤ nodes'.length ∧
      (∀ j, j < nodes.length → nodes'[j]? = nodes[j]?) ∧
      (∀ j nd, nodes.length ≤ j → nodes'[j]? = some nd →
        ∀ inp ∈ nd.input_node_indices, j < inp ∧ inp < nodes'.length) ∧
      (∀ i ∈ acc', i ∈ acc ∨ (nodes.length ≤ i ∧ i < nodes'.length)) := by
  intro sources
  induction sources with
  | nil =>
    intro acc nodes acc' nodes' h
    unfold buildInputsGo at h
    injection h with h
    injection h with h1 h2
    subst h1; subst h2
    exact ⟨le_refl _, fun _ _ => rfl, fun j nd hj hnd => by
      rw [List.getElem?_eq_none hj] at hnd; exact absurd hnd (by simp),
      fun i hi => Or.inl hi⟩
  | cons s rest ih =>
    intro acc nodes acc' nodes' h
    unfold buildInputsGo at h
    by_cases hc : ((matrix.getD s []).getD target none).isSome
    · rw [if_pos hc] at h
      cases hstepv : step s nodes with
      | error e => rw [hstepv] at h; exact absurd h (by simp)
      | ok p =>
        obtain ⟨r, mid⟩ := p
        rw [hstepv] at h
        obtain ⟨hm1, hm2, hm3, hm4⟩ := hstep s nodes r mid hstepv
        cases r with
        | some idx =>
          obtain ⟨hidx, hlt⟩ := hm3 idx rfl
          obtain ⟨h1, h2, h3, h4⟩ := ih (acc ++ [idx]) mid acc' nodes' h
          refine ⟨le_trans hm1 h1, ?_, ?_, ?_⟩
          · intro j hj
            rw [h2 j (lt_of_lt_of_le hj hm1), hm2 j hj]
          · intro j nd hj hnd inp hinp
            by_cases hjm : j < mid.length
            · rw [h2 j hjm] at hnd
              obtain ⟨ha, hb⟩ := hm4 j nd hj hnd inp hinp
              exact ⟨ha, lt_of_lt_of_le hb h1⟩
            · exact h3 j nd (le_of_not_lt hjm) hnd inp hinp
          · intro i hi
            rcases h4 i hi with hin | ⟨hge, hlt'⟩
            · rcases List.mem_append.1 hin with hin' | hin'
              · exact Or.inl hin'
              · rw [List.mem_singleton] at hin'
                subst hin'
                refine Or.inr ⟨?_, ?_⟩ <;> omega
            · exact Or.inr ⟨le_trans hm1 hge, hlt'⟩
        | none =>
          obtain ⟨h1, h2, h3, h4⟩ := ih acc mid acc' nodes' h
          refine ⟨le_trans hm1 h1, ?_, ?_, ?_⟩
          · intro j hj
            rw [h2 j (lt_of_lt_of_le hj hm1), hm2 j hj]
          · intro j nd hj hnd inp hinp
            by_cases hjm : j < mid.length
            · rw [h2 j hjm] at hnd
              obtain ⟨ha, hb⟩ := hm4 j nd hj hnd inp hinp
              exact ⟨ha, lt_of_lt_of_le hb h1⟩
            · exact h3 j nd (le_of_not_lt hjm) hnd inp hinp
          · intro i hi
            rcases h4 i hi with hin | ⟨hge, hlt'⟩
            · exact Or.inl hin
            · exact Or.inr ⟨le_trans hm1 hge, hlt'⟩
    · rw [if_neg hc] at h
      exact ih acc nodes acc' nodes' h

theorem buildNodeRec_StepOk (matrix : ConnMatrix) :
    ∀ (fuel : ℕ) (path : List ℕ),
      StepOk (fun s ns => buildNodeRec matrix fuel s ns path) := by
  intro fuel
  induction fuel with
  | zero =>
    intro path s ns r ns' h
    exact absurd h (by simp [buildNodeRec])
  | succ fuel ih =>
    intro path s ns r ns' h
    unfold buildNodeRec at h
    by_cases hcy : MAX_CYCLE_DEPTH ≤ path.count s
    · rw [if_pos hcy] at h
      injection h with h
      injection h with h1 h2
      subst h1; subst h2
      refine ⟨le_refl _, fun _ _ => rfl, fun i hi => by exact absurd hi (by simp), ?_⟩
      intro j nd hj hnd
      rw [List.getElem?_eq_none hj] at hnd
      exact absurd hnd (by simp)
    · rw [if_neg hcy] at h
      by_cases hb : matrix.length ≤ s
      · rw [if_pos hb] at h
        exact absurd h (by simp)
      · rw [if_neg hb] at h
        simp only at h
        cases hgo : buildInputsGo (fun s' ns' => buildNodeRec matrix fuel s' ns' (path ++ [s]))
            matrix s (List.range matrix.length) [] (ns ++ [⟨s, []⟩]) with
        | error e => rw [hgo] at h; exact absurd h (by simp)
        | ok p =>
          obtain ⟨inputs, nodes2⟩ := p
          rw [hgo] at h
          injection h with h
          injection h with h1 h2
          subst h1; subst h2
          obtain ⟨g1, g2, g3, g4⟩ := buildInputsGo_spec (ih (path ++ [s])) matrix s
            (List.range matrix.length) [] (ns ++ [⟨s, []⟩]) inputs nodes2 hgo
          have hlen1 : (ns ++ [(⟨s, []⟩ : UnrolledNode)]).length = ns.length + 1 := by simp
      
          have hlt : ns.length < nodes2.length := by
            rw [hlen1] at g1; omega
          refine ⟨?_, ?_, ?_, ?_⟩
          · rw [List.length_set]; exact le_of_lt hlt
          · intro j hj
            rw [List.getElem?_set_ne (by omega), g2 j (by rw [hlen1]; omega),
              List.getElem?_append_left (by omega)]
          · intro i hi
            injection hi with hi
            subst hi
            rw [List.length_set]
            exact ⟨rfl, hlt⟩
          · intro j nd hj hnd inp hinp
            rw [List.length_set] at *
            by_cases hje : j = ns.length
            · subst hje
              rw [List.getElem?_set_eq_of_lt _ hlt] at hnd
              injection hnd with hnd
              subst hnd
              rcases g4 inp hinp with hin | ⟨hge, hib⟩
              · exact absurd hin (by simp)
              · rw [hlen1] at hge
                exact ⟨by omega, hib⟩
            · rw [List.getElem?_set_ne (fun he => hje he.symm)] at hnd
              exact g3 j nd (by rw [hlen1]; omega) hnd inp hinp

theorem buildRoots_ordered (matrix : ConnMatrix) (fuel : ℕ) :
    ∀ (cs : List ℕ) (roots : List (ℕ × ℕ)) (nodes : List UnrolledNode)
      (roots' : List (ℕ × ℕ)) (nodes' : List UnrolledNode),
      buildRoots matrix fuel cs roots nodes = .ok (roots', nodes') →
      PlanOrdered nodes → PlanOrdered nodes' := by
  intro cs
  induction cs with
  | nil =>
    intro roots nodes roots' nodes' h hord
    unfold buildRoots at h
    injection h with h
    injection h with h1 h2
    subst h2
    exact hord
  | cons c rest ih =>
    intro roots nodes roots' nodes' h hord
    unfold buildRoots at h
    by_cases hk : (roots.lookup c).isSome
    · rw [if_pos hk] at h
      exact ih roots nodes roots' nodes' h hord
    · rw [if_neg hk] at h
      cases hb : buildNodeRec matrix fuel c nodes [] with
      | error e => rw [hb] at h; exact absurd h (by simp)
      | ok p =>
        obtain ⟨r, mid⟩ := p
        rw [hb] at h
        obtain ⟨hm1, hm2, -, hm4⟩ := buildNodeRec_StepOk matrix fuel [] c nodes r mid hb
        have hmid : PlanOrdered mid := by
          intro j nd hnd inp hinp
          by_cases hj : j < nodes.length
          · rw [hm2 j hj] at hnd
            obtain ⟨ha, hb'⟩ := hord j nd hnd inp hinp
            exact ⟨ha, lt_of_lt_of_le hb' hm1⟩
          · exact hm4 j nd (le_of_not_lt hj) hnd inp hinp
        cases r with
        | some idx => exact ih _ mid roots' nodes' h hmid
        | none => exact ih roots mid roots' nodes' h hmid


/-- **C1** (counterexample to the claim as stated).  The plan compiled from
the one-operator self-feedback matrix has node 0 with input node 1, and
`1 < 0` is false: inputs do *not* appear earlier in the plan. -/
theorem plan_input_lt_counterexample :
    buildUnrolledGraph [[some ConnectionParams.default]] [0] [] =
      .ok [⟨0, [1]⟩, ⟨0, []⟩] ∧
    ([(⟨0, [1]⟩ : UnrolledNode), ⟨0, []⟩] : List UnrolledNode)[0]? = some ⟨0, [1]⟩ ∧
    (1 : ℕ) ∈ ([1] : List ℕ) ∧ ¬ ((1 : ℕ) < 0) :=
  ⟨rfl, rfl, by decide, by decide⟩

/-! ## C5 — empty plan renders zeros -/
theorem getD_replicate_zero (n i : ℕ) : (List.replicate n (0:ℝ)).getD i 0 = 0 := by
  rw [List.getD_eq_getElem?_getD, List.getElem?_replicate]
  split <;> rfl

theorem mapIdxFrom_replicate_zero (f : ℕ → ℝ → ℝ) (n k : ℕ)
    (hf : ∀ i, f i 0 = 0) : mapIdxFrom k f (List.replicate n (0:ℝ)) = List.replicate n 0 := by
  induction n generalizing k with
  | zero => rfl
  | succ n ih => simp [List.replicate, mapIdxFrom, hf, ih]

theorem algorithm_process_empty_plan (rng42 : ℝ → ℝ → ℝ) (alg : Algorithm)
    (ctx : ProcessContext) (states : List OperatorState) (out : List ℝ)
    (h : alg.unrolled_nodes = []) :
    Algorithm.process rng42 alg ctx states out = (states, out) := by
  unfold Algorithm.process
  rw [if_pos (Or.inr (Or.inr (Or.inr (Or.inl (by rw [h]; rfl)))))]

theorem voice_process_empty_plan (rng42 : ℝ → ℝ → ℝ) (v : Voice) (alg : Algorithm)
    (ops : List Operator) (n : ℕ) (sr : ℝ) (h : alg.unrolled_nodes = []) :
    (Voice.process rng42 v alg ops (List.replicate n 0) sr).2 = List.replicate n 0 := by
  unfold Voice.process
  split_ifs with hf hn
  · rfl
  · rfl
  · simp only [List.length_replicate, algorithm_process_empty_plan rng42 alg _ _ _ h]
    split <;>
      exact mapIdxFrom_replicate_zero _ n 0 (fun i => by simp [getD_replicate_zero])

theorem process_voices_empty_plan_buffers (rng42 : ℝ → ℝ → ℝ) (s : Synth) (n : ℕ) (sr : ℝ)
    (h : s.algorithm.unrolled_nodes = []) :
    ∀ b ∈ (s.process_voices rng42 n sr).2.2, b = List.replicate n 0 := by
  unfold Synth.process_voices
  suffices hgen : ∀ (voices : List Voice) (acc : List Voice × ℝ × List (List ℝ)),
      (∀ b ∈ acc.2.2, b = List.replicate n (0:ℝ)) →
      ∀ b ∈ (voices.foldl (fun (acc : List Voice × ℝ × List (List ℝ)) v =>
        if v.active then
          let pr := v.process rng42 s.algorithm s.operators (List.replicate n 0) sr
          let energy := ((pr.2.map (fun x => x * x)).sum) / (n : ℝ)
          (acc.1 ++ [pr.1], acc.2.1 + energy, acc.2.2 ++ [pr.2])
        else (acc.1 ++ [v], acc.2.1, acc.2.2)) acc).2.2, b = List.replicate n 0 by
    exact hgen s.voices ([], 0, []) (by simp)
  intro voices
  induction voices with
  | nil => intro acc hacc; exact hacc
  | cons v rest ih =>
    intro acc hacc
    simp only [List.foldl_cons]
    by_cases hv : v.active = true
    · rw [if_pos hv]
      refine ih _ (fun b hb => ?_)
      rcases List.mem_append.1 hb with hb' | hb'
      · exact hacc b hb'
      · rw [List.mem_singleton] at hb'
        subst hb'
        exact voice_process_empty_plan rng42 v s.algorithm s.operators n sr h
    · rw [if_neg hv]
      exact ih _ hacc

theorem mix_fold_zero (m : ℕ) :
    ∀ (bufs : List (List ℝ)), (∀ b ∈ bufs, b = List.replicate m 0) →
    ∀ (out : List ℝ), out = List.replicate m (0:ℝ) →
    bufs.foldl (fun out buf => mapIdxFrom 0 (fun i x => x + buf.getD i 0) out) out =
      List.replicate m 0 := by
  intro bufs
  induction bufs with
  | nil => intro _ out hout; exact hout
  | cons b rest ih =>
    intro hb out hout
    simp only [List.foldl_cons]
    refine ih (fun b' hb' => hb b' (List.mem_cons_of_mem _ hb')) _ ?_
    subst hout
    rw [hb b (List.mem_cons_self _ _)]
    exact mapIdxFrom_replicate_zero _ m 0 (fun i => by simp [getD_replicate_zero])

/-- **C5.** Whenever the compiled plan is empty, the block-render entry
point `Synth::process` writes zeros into the entire output buffer: whatever
the buffer held before the call, the result is all zeros (of the same
length).  (`Algorithm::process` itself returns early on an empty plan, but
`mix_and_apply_gain` clears the output and mixes only the voice buffers,
which an empty plan leaves at zero.) -/
theorem synth_process_empty_plan_writes_zeros (rng42 : ℝ → ℝ → ℝ) (s : Synth)
    (output : List ℝ) (sr : ℝ) (h : s.algorithm.unrolled_nodes = []) :
    (Synth.process rng42 s output sr).2 = List.replicate output.length 0 := by
  unfold Synth.process Synth.mix_and_apply_gain Synth.apply_limiter
  dsimp only
  have hbufs := process_voices_empty_plan_buffers rng42 s output.length sr h
  rw [mix_fold_zero output.length _ (fun b hb => hbufs b hb) _ rfl]
  rw [mapIdxFrom_replicate_zero _ output.length 0 (fun i => by simp)]
  rw [List.map_replicate]
  have : ¬ ((0.9:ℝ) < |(0:ℝ)|) := by norm_num
  rw [if_neg this]

/-- Witness for C5: a render of a dirty two-sample buffer against an empty
plan yields zeros. -/
theorem synth_process_empty_plan_writes_zeros_witness :
    (Synth.process (fun _ _ => 0) demoSynthEmpty [1, 2] 1).2 =
      List.replicate ([(1 : ℝ), 2]).length 0 :=
  synth_process_empty_plan_writes_zeros (fun _ _ => 0) demoSynthEmpty [1, 2] 1 rfl


/-! ## C7 — envelope range -/
theorem clamp01_mem (p : ℝ) : 0 ≤ clamp01 p ∧ clamp01 p ≤ 1 :=
  ⟨le_max_right _ _, max_le (min_le_right _ _) zero_le_one⟩

theorem two_rpow_mem {p : ℝ} (h0 : 0 ≤ p) (h1 : p ≤ 1) :
    1 ≤ (2:ℝ) ^ p ∧ (2:ℝ) ^ p ≤ 2 := by
  constructor
  · calc (1:ℝ) = (2:ℝ) ^ (0:ℝ) := (Real.rpow_zero 2).symm
    _ ≤ (2:ℝ) ^ p := Real.rpow_le_rpow_of_exponent_le one_le_two h0
  · calc (2:ℝ) ^ p ≤ (2:ℝ) ^ (1:ℝ) := Real.rpow_le_rpow_of_exponent_le one_le_two h1
    _ = 2 := Real.rpow_one 2

theorem lerp_mem {a b t : ℝ} (ha0 : 0 ≤ a) (ha1 : a ≤ 1) (hb0 : 0 ≤ b) (hb1 : b ≤ 1)
    (ht0 : 0 ≤ t) (ht1 : t ≤ 1) : 0 ≤ lerp a b t ∧ lerp a b t ≤ 1 := by
  unfold lerp
  constructor <;> nlinarith

theorem apply_curve_attack_mem (eg : EnvelopeGenerator)
    (hβ0 : 0 ≤ eg.curve_blend_factor) (hβ1 : eg.curve_blend_factor ≤ 1) (p : ℝ) :
    0 ≤ eg.apply_curve_attack p ∧ eg.apply_curve_attack p ≤ 1 := by
  unfold EnvelopeGenerator.apply_curve_attack
  dsimp only
  obtain ⟨hc0, hc1⟩ := clamp01_mem p
  split_ifs
  · exact ⟨hc0, hc1⟩
  · obtain ⟨hr1, hr2⟩ := two_rpow_mem hc0 hc1
    exact lerp_mem hc0 hc1 (by linarith) (by linarith) hβ0 hβ1

theorem apply_curve_decay_release_mem (eg : EnvelopeGenerator)
    (hβ0 : 0 ≤ eg.curve_blend_factor) (hβ1 : eg.curve_blend_factor ≤ 1) (p : ℝ) :
    0 ≤ eg.apply_curve_decay_release p ∧ eg.apply_curve_decay_release p ≤ 1 := by
  unfold EnvelopeGenerator.apply_curve_decay_release
  dsimp only
  obtain ⟨hc0, hc1⟩ := clamp01_mem p
  split_ifs
  · exact ⟨by linarith, by linarith⟩
  · obtain ⟨hr1, hr2⟩ := two_rpow_mem hc0 hc1
    exact lerp_mem (by linarith) (by linarith) (by linarith) (by linarith) hβ0 hβ1

theorem evaluate_non_release_mem (eg : EnvelopeGenerator)
    (hS0 : 0 ≤ eg.sustain) (hS1 : eg.sustain ≤ 1)
    (hβ0 : 0 ≤ eg.curve_blend_factor) (hβ1 : eg.curve_blend_factor ≤ 1) (t : ℝ) :
    0 ≤ eg.evaluate_non_release t ∧ eg.evaluate_non_release t ≤ 1 := by
  unfold EnvelopeGenerator.evaluate_non_release
  dsimp only
  split_ifs
  · exact ⟨zero_le_one, le_refl 1⟩
  · exact apply_curve_attack_mem eg hβ0 hβ1 _
  · exact ⟨hS0, hS1⟩
  · obtain ⟨hm0, hm1⟩ := apply_curve_decay_release_mem eg hβ0 hβ1 ((t - eg.attack) / eg.decay)
    constructor <;> nlinarith
  · exact ⟨hS0, hS1⟩

/-- **C7.** For every envelope with well-formed parameters (`A, D, R ≥ 0`,
`S ∈ [0,1]`, curve control in `[0,10]` with the blend factor derived from it
by `set_curve`, i.e. `β = curve / 10 ∈ [0,1]`), and for every `t_on ≥ 0` and
optional `t_off ≥ 0`, `EnvelopeGenerator::evaluate` returns a value in
`[0, 1]`. -/
theorem envelope_evaluate_in_unit_interval (eg : EnvelopeGenerator)
    (hA : 0 ≤ eg.attack) (hD : 0 ≤ eg.decay) (hR : 0 ≤ eg.release)
    (hS0 : 0 ≤ eg.sustain) (hS1 : eg.sustain ≤ 1)
    (hc0 : 0 ≤ eg.curve) (hc1 : eg.curve ≤ 10)
    (hβ : eg.curve_blend_factor = eg.curve / 10)
    (t_on : ℝ) (hton : 0 ≤ t_on) (t_off : Option ℝ)
    (htoff : ∀ v, t_off = some v → 0 ≤ v) :
    0 ≤ eg.evaluate t_on t_off ∧ eg.evaluate t_on t_off ≤ 1 := by
  have hβ0 : 0 ≤ eg.curve_blend_factor := by rw [hβ]; positivity
  have hβ1 : eg.curve_blend_factor ≤ 1 := by rw [hβ]; linarith
  unfold EnvelopeGenerator.evaluate
  cases t_off with
  | none => exact evaluate_non_release_mem eg hS0 hS1 hβ0 hβ1 t_on
  | some toff =>
    dsimp only
    split_ifs
    · exact ⟨le_refl 0, zero_le_one⟩
    · obtain ⟨hv0, hv1⟩ := evaluate_non_release_mem eg hS0 hS1 hβ0 hβ1 (t_on - toff)
      obtain ⟨hm0, hm1⟩ := apply_curve_decay_release_mem eg hβ0 hβ1 (toff / eg.release)
      constructor
      · exact mul_nonneg hv0 hm0
      · calc eg.evaluate_non_release (t_on - toff) * eg.apply_curve_decay_release (toff / eg.release)
            ≤ 1 * 1 := mul_le_mul hv1 hm1 hm0 zero_le_one
        _ = 1 := mul_one 1

/-- Witness for C7 at a concrete envelope and time. -/
theorem envelope_evaluate_in_unit_interval_witness :
    0 ≤ EnvelopeGenerator.evaluate ⟨0, 0, 1, 0, 0, 0⟩ 0 none ∧
    EnvelopeGenerator.evaluate ⟨0, 0, 1, 0, 0, 0⟩ 0 none ≤ 1 :=
  envelope_evaluate_in_unit_interval ⟨0, 0, 1, 0, 0, 0⟩ (le_refl 0) (le_refl 0) (le_refl 0)
    zero_le_one (le_refl 1) (le_refl 0) (by norm_num) (by norm_num) 0 (le_refl 0) none
    (fun v hv => by cases hv)

/-! ## C6 — the per-sample emission formula of `Operator::process` -/

theorem processLoop_outs_fused (rng42 : ℝ → ℝ → ℝ) (op : Operator) (ctx : ProcessContext) :
    ∀ (mods : List ℝ) (k : ℕ) (r mi phase : ℝ) (fil : Option (List Filter)),
      (Operator.processLoop rng42 op ctx mods k r mi phase fil).2.2.2.2 =
      mapIdxFrom k (fun i y => y * envAt op ctx i * op.gain)
        (chainOutsO fil (scaledWaveList rng42 op ctx mods r mi phase)) := by
  intro mods
  induction mods with
  | nil => intro k r mi phase fil; rfl
  | cons m rest ih =>
    intro k r mi phase fil
    simp only [Operator.processLoop, scaledWaveList, chainOutsO, mapIdxFrom, envAt]
    exact congrArg _ (ih (k + 1) _ _ _ _)


/-- **C6** (amended).  For every non-degenerate call (non-empty output,
matching modulation length), the block written by `Operator::process` is,
sample for sample, `out[k] = y_k · env_k · P.gain`, where `y_k` is the
result of running the per-voice filter chain (as installed at note-on by
`manage_filter_states`) statefully, in list order, over the sequence of
*already-scaled* samples `wave_k · m̂_k`: the smoothed modulation index
scales the wave *before* the filter chain, not after. -/
theorem operator_process_emit_scales_before_filter (rng42 : ℝ → ℝ → ℝ) (op : Operator)
    (ctx : ProcessContext) (modulation : List ℝ) (state : OperatorState) (output : List ℝ)
    (h : ¬ (output.length = 0 ∨ modulation.length ≠ output.length)) :
    (Operator.process rng42 op ctx modulation state output).2 =
      mapIdxFrom 0 (fun i y => y * envAt op ctx i * op.gain)
        (chainOutsO
          (op.manage_filter_states
            { state with
              current_ratio := some (state.current_ratio.getD op.frequency_ratio),
              current_modulation_index :=
                some (state.current_modulation_index.getD op.modulation_index) } ctx).filters
          (scaledWaveList rng42 op ctx modulation
            (state.current_ratio.getD op.frequency_ratio)
            (state.current_modulation_index.getD op.modulation_index)
            (op.manage_filter_states
              { state with
                current_ratio := some (state.current_ratio.getD op.frequency_ratio),
                current_modulation_index :=
                  some (state.current_modulation_index.getD op.modulation_index) } ctx).current_phase)) := by
  unfold Operator.process
  rw [if_neg h]
  dsimp only
  exact processLoop_outs_fused rng42 op ctx modulation 0 _ _ _ _

/-- Witness for the amended C6 at a concrete one-sample call. -/
theorem operator_process_emit_scales_before_filter_witness :
    (Operator.process rngZero ceOp ceCtx [1] ceState [0]).2 =
      mapIdxFrom 0 (fun i y => y * envAt ceOp ceCtx i * ceOp.gain)
        (chainOutsO
          (ceOp.manage_filter_states
            { ceState with
              current_ratio := some (ceState.current_ratio.getD ceOp.frequency_ratio),
              current_modulation_index :=
                some (ceState.current_modulation_index.getD ceOp.modulation_index) } ceCtx).filters
          (scaledWaveList rngZero ceOp ceCtx [1]
            (ceState.current_ratio.getD ceOp.frequency_ratio)
            (ceState.current_modulation_index.getD ceOp.modulation_index)
            (ceOp.manage_filter_states
              { ceState with
                current_ratio := some (ceState.current_ratio.getD ceOp.frequency_ratio),
                current_modulation_index :=
                  some (ceState.current_modulation_index.getD ceOp.modulation_index) } ceCtx).current_phase)) :=
  operator_process_emit_scales_before_filter rngZero ceOp ceCtx [1] ceState [0]
    (by decide)


set_option maxHeartbeats 1000000 in
/-- **C6** (counterexample to the claim as stated).  With a comb filter in
the chain and a varying smoothed modulation index (state seeded at 1,
operator target 0), the second output sample of `Operator::process` is
`1.997001` (the filter runs on the scaled wave), while the claim's formula
`wave_filtered · m̂ · env · gain` (filter on the unscaled wave, scaled
afterwards) yields `1.996002`: the two emission orders differ. -/
theorem operator_emit_order_counterexample :
    (Operator.process rngZero ceOp ceCtx [1, 1] ceState [0, 0]).2.getD 1 0 =
        1997001 / 1000000 ∧
    (operatorClaimOutput rngZero ceOp ceCtx [1, 1] ceState [0, 0]).getD 1 0 =
        1996002 / 1000000 ∧
    (Operator.process rngZero ceOp ceCtx [1, 1] ceState [0, 0]).2 ≠
      operatorClaimOutput rngZero ceOp ceCtx [1, 1] ceState [0, 0] := by
  have h1 : (Operator.process rngZero ceOp ceCtx [1, 1] ceState [0, 0]).2 =
      [999 / 1000, 1997001 / 1000000] := by
    norm_num [Operator.process, Operator.processLoop, Operator.manage_filter_states,
      operatorClaimOutput, operatorClaimLoop, runChainO, runChain, Filter.process,
      CombState.process, CombState.new, EnvelopeGenerator.evaluate,
      EnvelopeGenerator.evaluate_non_release, rustRem, ceOp, ceState, ceCtx, rngZero,
      RATIO_SMOOTHING_FACTOR, MODULATION_INDEX_SMOOTHING_FACTOR, EPSILON, List.getD,
      List.replicate]
  have h2 : (operatorClaimOutput rngZero ceOp ceCtx [1, 1] ceState [0, 0]) =
      [999 / 1000, 1996002 / 1000000] := by
    norm_num [Operator.process, Operator.processLoop, Operator.manage_filter_states,
      operatorClaimOutput, operatorClaimLoop, runChainO, runChain, Filter.process,
      CombState.process, CombState.new, EnvelopeGenerator.evaluate,
      EnvelopeGenerator.evaluate_non_release, rustRem, ceOp, ceState, ceCtx, rngZero,
      RATIO_SMOOTHING_FACTOR, MODULATION_INDEX_SMOOTHING_FACTOR, EPSILON, List.getD,
      List.replicate]
  refine ⟨by rw [h1]; norm_num [List.getD], by rw [h2]; norm_num [List.getD], ?_⟩
  rw [h1, h2]
  intro hcontra
  simp only [List.cons.injEq] at hcontra
  norm_num at hcontra


/-! ## C1 (continued) — the feedback pass preserves forward ordering -/

theorem allInputs_append (l r : List UnrolledNode) :
    allInputs (l ++ r) = allInputs l ++ allInputs r := by
  simp [allInputs]

theorem mem_allInputs (nodes : List UnrolledNode) (x : ℕ) :
    x ∈ allInputs nodes ↔
      ∃ (j : ℕ) (nd : UnrolledNode), nodes[j]? = some nd ∧ x ∈ nd.input_node_indices := by
  constructor
  · intro hx
    simp only [allInputs, List.mem_join, List.mem_map] at hx
    obtain ⟨l, ⟨nd, hnd, rfl⟩, hxl⟩ := hx
    obtain ⟨j, hj, rfl⟩ := List.mem_iff_getElem.1 hnd
    exact ⟨j, _, List.getElem?_eq_getElem hj, hxl⟩
  · rintro ⟨j, nd, hnd, hx⟩
    have hmem : nd ∈ nodes := by
      obtain ⟨h, he⟩ := List.getElem?_eq_some.1 hnd
      exact he ▸ List.getElem_mem h
    simp only [allInputs, List.mem_join, List.mem_map]
    exact ⟨nd.input_node_indices, ⟨nd, hmem, rfl⟩, hx⟩

theorem lookup_eq_of_mem (l : List (ℕ × ℕ)) (hk : List.Pairwise (fun a b => a.1 ≠ b.1) l)
    (k v : ℕ) (hm : (k, v) ∈ l) : l.lookup k = some v := by
  induction l with
  | nil => cases hm
  | cons p rest ih =>
    obtain ⟨p1, p2⟩ := p
    rcases List.mem_cons.1 hm with he | hm'
    · cases he
      simp [List.lookup]
    · have hne : k ≠ p1 := fun he =>
        (List.pairwise_cons.1 hk).1 (k, v) hm' (by simp [he])
      have hbeq : (k == p1) = false := beq_eq_false_iff_ne.2 hne
      simp only [List.lookup, hbeq]
      exact ih (List.pairwise_cons.1 hk).2 hm'

theorem mem_of_lookup (l : List (ℕ × ℕ)) (k v : ℕ) (h : l.lookup k = some v) :
    (k, v) ∈ l := by
  induction l with
  | nil => simp [List.lookup] at h
  | cons p rest ih =>
    obtain ⟨p1, p2⟩ := p
    by_cases he : k = p1
    · have hbeq : (k == p1) = true := beq_iff_eq.2 he
      simp only [List.lookup, hbeq] at h
      cases h
      simp [he]
    · have hbeq : (k == p1) = false := beq_eq_false_iff_ne.2 he
      simp only [List.lookup, hbeq] at h
      exact List.mem_cons_of_mem _ (ih h)

theorem set_append_cons (l : List UnrolledNode) (x : UnrolledNode) (r : List UnrolledNode)
    (y : UnrolledNode) : (l ++ x :: r).set l.length y = l ++ y :: r := by
  induction l with
  | nil => rfl
  | cons a as ih => simp [List.set, ih]

theorem join_nodup_comp : ∀ (L : List (List ℕ)), L.join.Nodup →
    ∀ (i : ℕ) (l : List ℕ), L[i]? = some l → l.Nodup := by
  intro L
  induction L with
  | nil => intro _ i l h; simp at h
  | cons hd tl ih =>
    intro hnd i l h
    rw [show (hd :: tl).join = hd ++ tl.join from rfl, List.nodup_append] at hnd
    cases i with
    | zero =>
      simp only [List.getElem?_cons_zero] at h
      cases h
      exact hnd.1
    | succ i => exact ih hnd.2.1 i l (by simpa using h)

theorem join_nodup_disj : ∀ (L : List (List ℕ)), L.join.Nodup →
    ∀ (i j : ℕ) (a b : List ℕ), L[i]? = some a → L[j]? = some b → i ≠ j →
    ∀ x ∈ a, x ∉ b := by
  intro L
  induction L with
  | nil => intro _ i j a b h; simp at h
  | cons hd tl ih =>
    intro hnd i j a b ha hb hij x hxa hxb
    rw [show (hd :: tl).join = hd ++ tl.join from rfl, List.nodup_append] at hnd
    have hmem : ∀ (k : ℕ) (c : List ℕ), tl[k]? = some c → ∀ y ∈ c, y ∈ tl.join := by
      intro k c hc y hy
      rw [List.mem_join]
      refine ⟨c, ?_, hy⟩
      obtain ⟨h, he⟩ := List.getElem?_eq_some.1 hc
      exact he ▸ List.getElem_mem h
    cases i with
    | zero =>
      simp only [List.getElem?_cons_zero] at ha
      cases ha
      cases j with
      | zero => exact hij rfl
      | succ j =>
        exact hnd.2.2 hxa (hmem j b (by simpa using hb) x hxb)
    | succ i =>
      cases j with
      | zero =>
        simp only [List.getElem?_cons_zero] at hb
        cases hb
        exact hnd.2.2 hxb (hmem i a (by simpa using ha) x hxa)
      | succ j =>
        exact ih hnd.2.1 i j a b (by simpa using ha) (by simpa using hb)
          (fun he => hij (by rw [he])) x hxa hxb

theorem allInputs_nodup_comp (nodes : List UnrolledNode) (h : (allInputs nodes).Nodup)
    (j : ℕ) (nd : UnrolledNode) (hnd : nodes[j]? = some nd) :
    nd.input_node_indices.Nodup :=
  join_nodup_comp _ h j _ (by rw [List.getElem?_map, hnd]; rfl)

theorem allInputs_nodup_disj (nodes : List UnrolledNode) (h : (allInputs nodes).Nodup)
    (i j : ℕ) (a b : UnrolledNode) (ha : nodes[i]? = some a) (hb : nodes[j]? = some b)
    (hij : i ≠ j) : ∀ x ∈ a.input_node_indices, x ∉ b.input_node_indices :=
  join_nodup_disj _ h i j _ _ (by rw [List.getElem?_map, ha]; rfl)
    (by rw [List.getElem?_map, hb]; rfl) hij

theorem allInputs_cons (n : UnrolledNode) (rest : List UnrolledNode) :
    allInputs (n :: rest) = n.input_node_indices ++ allInputs rest := rfl

theorem seg_input_bounds (base tail : List UnrolledNode)
    (hnew : ∀ j nd, base.length ≤ j → (base ++ tail)[j]? = some nd →
      ∀ inp ∈ nd.input_node_indices, j < inp ∧ inp < (base ++ tail).length) :
    ∀ x ∈ allInputs tail, base.length < x ∧ x < (base ++ tail).length := by
  intro x hx
  obtain ⟨jj, nd, hjj, hxnd⟩ := (mem_allInputs tail x).1 hx
  have hpos : (base ++ tail)[base.length + jj]? = some nd := by
    rw [List.getElem?_append_right (Nat.le_add_right _ _)]
    simpa using hjj
  obtain ⟨h1, h2⟩ := hnew (base.length + jj) nd (Nat.le_add_right _ _) hpos x hxnd
  exact ⟨lt_of_le_of_lt (Nat.le_add_right _ _) h1, h2⟩

theorem buildInputsGo_seg {step} (hstep : StepOk step) (hseg : StepSeg step)
    (matrix : ConnMatrix) (target : ℕ) :
    ∀ (sources acc : List ℕ) (nodes : List UnrolledNode) (acc' : List ℕ)
      (nodes' : List UnrolledNode),
      buildInputsGo step matrix target sources acc nodes = .ok (acc', nodes') →
      ∃ newRoots tailN, acc' = acc ++ newRoots ∧ nodes' = nodes ++ tailN ∧
        (newRoots ++ allInputs tailN).Nodup ∧
        (∀ i ∈ newRoots, nodes.length ≤ i ∧ i < nodes'.length) ∧
        (∀ x ∈ allInputs tailN, nodes.length < x ∧ x < nodes'.length) := by
  intro sources
  induction sources with
  | nil =>
    intro acc nodes acc' nodes' h
    unfold buildInputsGo at h
    injection h with h
    injection h with h1 h2
    subst h1; subst h2
    exact ⟨[], [], by simp, by simp, by simp [allInputs], by simp, by simp [allInputs]⟩
  | cons s rest ih =>
    intro acc nodes acc' nodes' h
    unfold buildInputsGo at h
    by_cases hc : ((matrix.getD s []).getD target none).isSome
    · rw [if_pos hc] at h
      cases hstepv : step s nodes with
      | error e => rw [hstepv] at h; exact absurd h (by simp)
      | ok p =>
        obtain ⟨r, mid⟩ := p
        rw [hstepv] at h
        obtain ⟨⟨t1, ht1eq, ht1nodup, ht1bounds⟩, hnoneeq⟩ := hseg s nodes r mid hstepv
        obtain ⟨hm1, hm2, hm3, hm4⟩ := hstep s nodes r mid hstepv
        cases r with
        | some idx =>
          obtain ⟨hidx, hidxlt⟩ := hm3 idx rfl
          obtain ⟨nr', t2, hacc', hnodes', hnodup', hroots', hseg'⟩ :=
            ih (acc ++ [idx]) mid acc' nodes' h
          refine ⟨idx :: nr', t1 ++ t2, by simp [hacc'], by simp [hnodes', ht1eq], ?_, ?_, ?_⟩
          · rw [allInputs_append]
            have hmidlen : mid.length = nodes.length + t1.length := by simp [ht1eq]
            have hd1 : ∀ x ∈ allInputs t1, x ∉ nr' ++ allInputs t2 := by
              intro x hx hmem
              have hxlt : x < mid.length := (ht1bounds x hx).2
              rcases List.mem_append.1 hmem with hr | ht
              · exact absurd ((hroots' x hr).1) (by omega)
              · exact absurd ((hseg' x ht).1) (by omega)
            have hbig : ((allInputs t1 ++ nr') ++ allInputs t2).Nodup := by
              have : ((allInputs t1) ++ (nr' ++ allInputs t2)).Nodup :=
                List.nodup_append.2 ⟨ht1nodup, hnodup', fun x hx => hd1 x hx⟩
              simpa [List.append_assoc] using this
            have hperm : ((allInputs t1 ++ nr') ++ allInputs t2).Perm
                ((nr' ++ allInputs t1) ++ allInputs t2) :=
              List.Perm.append_right _
                (List.perm_append_comm : (allInputs t1 ++ nr').Perm (nr' ++ allInputs t1))
            have hnodup2 : (nr' ++ (allInputs t1 ++ allInputs t2)).Nodup := by
              simpa [List.append_assoc] using hperm.nodup hbig
            rw [List.cons_append]
            refine List.nodup_cons.2 ⟨?_, hnodup2⟩
            intro hmem
            rcases List.mem_append.1 hmem with hr | ht
            · have := (hroots' idx hr).1; omega
            · rcases List.mem_append.1 ht with h1 | h2
              · have := (ht1bounds idx h1).1; omega
              · have := (hseg' idx h2).1; omega
          · intro i hi
            rcases List.mem_cons.1 hi with rfl | hi'
            · rw [hnodes', List.length_append]
              omega
            · obtain ⟨ha, hb⟩ := hroots' i hi'
              exact ⟨le_trans hm1 ha, hb⟩
          · intro x hx
            rcases List.mem_append.1 ((allInputs_append t1 t2) ▸ hx) with h1 | h2
            · obtain ⟨ha, hb⟩ := ht1bounds x h1
              exact ⟨ha, lt_of_lt_of_le hb
                (by rw [hnodes', List.length_append]; exact Nat.le_add_right _ _)⟩
            · obtain ⟨ha, hb⟩ := hseg' x h2
              exact ⟨lt_of_le_of_lt hm1 ha, hb⟩
        | none =>
          have hmideq : mid = nodes := hnoneeq rfl
          subst hmideq
          exact ih acc mid acc' nodes' h
    · rw [if_neg hc] at h
      exact ih acc nodes acc' nodes' h

theorem buildNodeRec_StepSeg (matrix : ConnMatrix) :
    ∀ (fuel : ℕ) (path : List ℕ),
      StepSeg (fun s ns => buildNodeRec matrix fuel s ns path) := by
  intro fuel
  induction fuel with
  | zero =>
    intro path s ns r ns' h
    exact absurd h (by simp [buildNodeRec])
  | succ fuel ih =>
    intro path s ns r ns' h
    unfold buildNodeRec at h
    by_cases hcy : MAX_CYCLE_DEPTH ≤ path.count s
    · rw [if_pos hcy] at h
      injection h with h
      injection h with h1 h2
      subst h1; subst h2
      exact ⟨⟨[], by simp, by simp [allInputs], by simp [allInputs]⟩, fun _ => rfl⟩
    · rw [if_neg hcy] at h
      by_cases hb : matrix.length ≤ s
      · rw [if_pos hb] at h
        exact absurd h (by simp)
      · rw [if_neg hb] at h
        simp only at h
        cases hgo : buildInputsGo (fun s' ns' => buildNodeRec matrix fuel s' ns' (path ++ [s]))
            matrix s (List.range matrix.length) [] (ns ++ [⟨s, []⟩]) with
        | error e => rw [hgo] at h; exact absurd h (by simp)
        | ok p =>
          obtain ⟨inputs, nodes2⟩ := p
          rw [hgo] at h
          injection h with h
          injection h with h1 h2
          subst h1; subst h2
          obtain ⟨newRoots, tailGo, haccEq, hnodesEq, hnodup, hroots, hsegb⟩ :=
            buildInputsGo_seg (buildNodeRec_StepOk matrix fuel (path ++ [s]))
              (ih (path ++ [s])) matrix s
              (List.range matrix.length) [] (ns ++ [⟨s, []⟩]) inputs nodes2 hgo
    
          have hinputs : inputs = newRoots := by simpa using haccEq
          subst hinputs
          have hset : nodes2.set ns.length ⟨s, inputs⟩ = ns ++ ⟨s, inputs⟩ :: tailGo := by
            rw [hnodesEq, List.append_assoc, List.singleton_append]
            exact set_append_cons ns _ tailGo _
          refine ⟨⟨⟨s, inputs⟩ :: tailGo, hset, ?_, ?_⟩, fun hc => by cases hc⟩
          · rw [allInputs_cons]
            exact hnodup
          · intro x hx
            have hlen2 : nodes2.length = ns.length + 1 + tailGo.length := by
              rw [hnodesEq]
              simp only [List.length_append, List.length_singleton]
            have hlenset : (nodes2.set ns.length ⟨s, inputs⟩).length = nodes2.length :=
              List.length_set _ _ _
            rw [allInputs_cons] at hx
            rcases List.mem_append.1 hx with h1 | h2
            · obtain ⟨ha, hb⟩ := hroots x h1
              simp only [List.length_append, List.length_singleton] at ha
              exact ⟨by omega, by omega⟩
            · obtain ⟨ha, hb⟩ := hsegb x h2
              simp only [List.length_append, List.length_singleton] at ha
              exact ⟨by omega, by omega⟩

theorem buildRoots_forest (matrix : ConnMatrix) (fuel : ℕ) :
    ∀ (cs : List ℕ) (roots : List (ℕ × ℕ)) (nodes : List UnrolledNode)
      (roots' : List (ℕ × ℕ)) (nodes' : List UnrolledNode),
      buildRoots matrix fuel cs roots nodes = .ok (roots', nodes') →
      PlanOrdered nodes → (allInputs nodes).Nodup →
      PlanOrdered nodes' ∧ (allInputs nodes').Nodup := by
  intro cs
  induction cs with
  | nil =>
    intro roots nodes roots' nodes' h hord hnd
    unfold buildRoots at h
    injection h with h
    injection h with h1 h2
    subst h2
    exact ⟨hord, hnd⟩
  | cons c rest ih =>
    intro roots nodes roots' nodes' h hord hnd
    unfold buildRoots at h
    by_cases hk : (roots.lookup c).isSome
    · rw [if_pos hk] at h
      exact ih roots nodes roots' nodes' h hord hnd
    · rw [if_neg hk] at h
      cases hbr : buildNodeRec matrix fuel c nodes [] with
      | error e => rw [hbr] at h; exact absurd h (by simp)
      | ok p =>
        obtain ⟨r, mid⟩ := p
        rw [hbr] at h
        obtain ⟨hm1, hm2, -, hm4⟩ := buildNodeRec_StepOk matrix fuel [] c nodes r mid hbr
        obtain ⟨⟨tail, htaileq, htailnodup, htailbounds⟩, -⟩ :=
          buildNodeRec_StepSeg matrix fuel [] c nodes r mid hbr
        have hmord : PlanOrdered mid := by
          intro j nd hnd' inp hinp
          by_cases hj : j < nodes.length
          · rw [hm2 j hj] at hnd'
            obtain ⟨ha, hb⟩ := hord j nd hnd' inp hinp
            exact ⟨ha, lt_of_lt_of_le hb hm1⟩
          · exact hm4 j nd (le_of_not_lt hj) hnd' inp hinp
        have hmnd : (allInputs mid).Nodup := by
          rw [htaileq, allInputs_append, List.nodup_append]
          refine ⟨hnd, htailnodup, fun x hx hx' => ?_⟩
          obtain ⟨j, nd, hj, hxnd⟩ := (mem_allInputs nodes x).1 hx
          have hjlt : j < nodes.length := by
            by_contra hge
            rw [List.getElem?_eq_none (le_of_not_lt hge)] at hj
            cases hj
          have hxlt : x < nodes.length := (hord j nd hj x hxnd).2
          have := (htailbounds x hx').1
          omega
        cases r with
        | some idx => exact ih _ mid roots' nodes' h hmord hmnd
        | none => exact ih roots mid roots' nodes' h hmord hmnd

theorem sumUnvisited_pop (initial : List UnrolledNode) (visited : List ℕ) (orig : ℕ)
    (h1 : orig < initial.length) (h2 : orig ∉ visited) :
    sumUnvisited initial visited =
      (1 + (initial.getD orig ⟨0, []⟩).input_node_indices.length) +
        sumUnvisited initial (orig :: visited) := by
  unfold sumUnvisited
  set f : ℕ → ℕ := fun o => 1 + (initial.getD o ⟨0, []⟩).input_node_indices.length with hf
  set l : List ℕ := (List.range initial.length).filter (fun o => o ∉ visited) with hl
  have hln : l.Nodup := (List.nodup_range _).filter _
  have hmem : orig ∈ l := by
    rw [hl, List.mem_filter]
    exact ⟨List.mem_range.2 h1, by simpa using h2⟩
  have hperm : l.Perm (orig :: l.erase orig) := List.perm_cons_erase hmem
  have herase : l.erase orig = (List.range initial.length).filter (fun o => o ∉ orig :: visited) := by
    rw [hln.erase_eq_filter orig, hl, List.filter_filter]
    refine List.filter_congr (fun x _ => ?_)
    by_cases hxo : x = orig <;> by_cases hxv : x ∈ visited <;> simp [hxo, hxv]

  calc (l.map f).sum = ((orig :: l.erase orig).map f).sum := (hperm.map f).sum_eq
    _ = f orig + ((l.erase orig).map f).sum := by simp
    _ = f orig + (((List.range initial.length).filter
          (fun o => o ∉ orig :: visited)).map f).sum := by rw [herase]

theorem getElem?_eq_some_getD (l : List UnrolledNode) (o : ℕ) (h : o < l.length) :
    l[o]? = some (l.getD o ⟨0, []⟩) := by
  rw [List.getD_eq_getElem?_getD, List.getElem?_eq_getElem h]
  rfl

theorem dupPhase1_spec (initial : List UnrolledNode) (to_node : ℕ)
    (nodesBase : List UnrolledNode) (hPO : PlanOrdered initial)
    (hF : (allInputs initial).Nodup) :
    ∀ (fuel : ℕ) (stack visited : List ℕ) (dmap : List (ℕ × ℕ))
      (nodes : List UnrolledNode),
      Dup1Inv initial to_node nodesBase stack visited dmap nodes →
      stack.length + sumUnvisited initial visited < fuel →
      ∃ visited',
        Dup1Inv initial to_node nodesBase [] visited'
          (dupPhase1 initial fuel stack visited dmap nodes).1
          (dupPhase1 initial fuel stack visited dmap nodes).2 ∧
        (∀ x, x ∈ stack ∨ x ∈ visited →
          ∃ d, (x, d) ∈ (dupPhase1 initial fuel stack visited dmap nodes).1) := by
  intro fuel
  induction fuel with
  | zero =>
    intro stack visited dmap nodes _ hμ
    exact absurd hμ (by omega)
  | succ fuel ih =>
    intro stack visited dmap nodes hInv hμ
    cases stack with
    | nil =>
      refine ⟨visited, ?_, ?_⟩
      · simpa [dupPhase1] using hInv
      · intro x hx
        rcases hx with hx | hx
        · cases hx
        · simpa [dupPhase1] using (hInv.vis_iff x).1 hx
    | cons orig rest =>
      obtain ⟨ho1, ho2, ho3⟩ := hInv.stack_ok orig (List.mem_cons_self _ _)
      have hcond : ¬ (initial.length ≤ orig ∨ orig ∈ visited) := by
        push_neg
        exact ⟨lt_of_lt_of_le ho1 (le_refl _), ho3⟩
      rw [show dupPhase1 initial (fuel + 1) (orig :: rest) visited dmap nodes =
        (if initial.length ≤ orig ∨ orig ∈ visited then
          dupPhase1 initial fuel rest visited dmap nodes
        else
          dupPhase1 initial fuel
            (((initial.getD orig ⟨0, []⟩).input_node_indices.filter
              (fun i => ¬ i ∈ orig :: visited)).reverse ++ rest) (orig :: visited)
            (dmap ++ [(orig, nodes.length)])
            (nodes ++ [⟨(initial.getD orig ⟨0, []⟩).original_op_index, []⟩])) from rfl]
      rw [if_neg hcond]
      set nd := initial.getD orig ⟨0, []⟩ with hnd
      set pushes := (nd.input_node_indices.filter (fun i => ¬ i ∈ orig :: visited)).reverse
        with hpushes
      set newIdx := nodes.length with hnewIdx
      have hndpos : initial[orig]? = some nd := getElem?_eq_some_getD initial orig ho1
      have hPOorig : ∀ inp ∈ nd.input_node_indices, orig < inp ∧ inp < initial.length :=
        fun inp hinp => hPO orig nd hndpos inp hinp
      have hndnodup : nd.input_node_indices.Nodup :=
        allInputs_nodup_comp initial hF orig nd hndpos
      have hdisj : ∀ q (ndq : UnrolledNode), q < initial.length → q ≠ orig →
          initial[q]? = some ndq → ∀ x ∈ ndq.input_node_indices,
          x ∉ nd.input_node_indices :=
        fun q ndq _ hne hq => allInputs_nodup_disj initial hF q orig ndq nd hq hndpos hne
      have hmempushes : ∀ x, x ∈ pushes ↔ x ∈ nd.input_node_indices ∧ ¬ (x = orig ∨ x ∈ visited) := by
        intro x
        rw [hpushes, List.mem_reverse, List.mem_filter]
        simp [List.mem_cons]
      -- a visited element that is an input of `orig` is impossible
      have hvisited_input : ∀ x, x ∈ nd.input_node_indices → x ∈ visited → False := by
        intro x hx hv
        rcases hInv.origin x (Or.inr hv) with hteq | ⟨q, hqv, hqin⟩
        · have := (hPOorig x hx).1
          omega
        · obtain ⟨dq, hdq⟩ := (hInv.vis_iff q).1 hqv
          have hqlt : q < initial.length := (hInv.entries (q, dq) hdq).1
          have hqne : q ≠ orig := fun he => ho3 (he ▸ hqv)
          exact hdisj q _ hqlt hqne (getElem?_eq_some_getD initial q hqlt) x hqin hx
      -- a stack element that is an input of `orig` is impossible
      have hstack_input : ∀ x, x ∈ nd.input_node_indices → x ∈ rest → False := by
        intro x hx hr
        rcases hInv.origin x (Or.inl (List.mem_cons_of_mem _ hr)) with hteq | ⟨q, hqv, hqin⟩
        · have := (hPOorig x hx).1
          omega
        · obtain ⟨dq, hdq⟩ := (hInv.vis_iff q).1 hqv
          have hqlt : q < initial.length := (hInv.entries (q, dq) hdq).1
          have hqne : q ≠ orig := fun he => ho3 (he ▸ hqv)
          exact hdisj q _ hqlt hqne (getElem?_eq_some_getD initial q hqlt) x hqin hx
      have hInv' : Dup1Inv initial to_node nodesBase (pushes ++ rest) (orig :: visited)
          (dmap ++ [(orig, newIdx)]) (nodes ++ [⟨nd.original_op_index, []⟩]) := by
        constructor
        · intro x
          constructor
          · intro hx
            rcases List.mem_cons.1 hx with rfl | hx'
            · exact ⟨newIdx, List.mem_append_right _ (List.mem_singleton.2 rfl)⟩
            · obtain ⟨d, hd⟩ := (hInv.vis_iff x).1 hx'
              exact ⟨d, List.mem_append_left _ hd⟩
          · rintro ⟨d, hd⟩
            rcases List.mem_append.1 hd with hd' | hd'
            · exact List.mem_cons_of_mem _ ((hInv.vis_iff x).2 ⟨d, hd'⟩)
            · rw [List.mem_singleton] at hd'
              cases hd'
              exact List.mem_cons_self _ _
        · rw [List.pairwise_append]
          refine ⟨hInv.keys_nodup, List.pairwise_singleton _ _, ?_⟩
          intro a ha b hb
          rw [List.mem_singleton] at hb
          subst hb
          intro he
          have hav : a.1 ∈ visited := (hInv.vis_iff a.1).2 ⟨a.2, by cases a; exact ha⟩
          have he' : a.1 = orig := he
          exact ho3 (he' ▸ hav)
        · rw [List.pairwise_append]
          refine ⟨hInv.vals_lt, List.pairwise_singleton _ _, ?_⟩
          intro a ha b hb
          rw [List.mem_singleton] at hb
          subst hb
          exact (hInv.entries a ha).2.2.2.1
        · intro p hp
          rcases List.mem_append.1 hp with hp' | hp'
          · obtain ⟨e1, e2, e3, e4, e5⟩ := hInv.entries p hp'
            refine ⟨e1, e2, e3, by simp; omega, ?_⟩
            rw [List.getElem?_append_left e4]
            exact e5
          · rw [List.mem_singleton] at hp'
            subst hp'
            refine ⟨ho1, ho2, hInv.base_len, by simp, ?_⟩
            rw [show (nodes ++ [(⟨nd.original_op_index, []⟩ : UnrolledNode)])[newIdx]? =
              some ⟨nd.original_op_index, []⟩ from by
                rw [List.getElem?_append_right (le_refl _)]
                simp]
        · intro s hs
          rcases List.mem_append.1 hs with hs' | hs'
          · obtain ⟨hin, hnv⟩ := (hmempushes s).1 hs'
            refine ⟨(hPOorig s hin).2, ?_, ?_⟩
            · have := (hPOorig s hin).1
              omega
            · intro hc
              rcases List.mem_cons.1 hc with rfl | hc'
              · exact hnv (Or.inl rfl)
              · exact hnv (Or.inr hc')
          · obtain ⟨s1, s2, s3⟩ := hInv.stack_ok s (List.mem_cons_of_mem _ hs')
            refine ⟨s1, s2, ?_⟩
            intro hc
            rcases List.mem_cons.1 hc with rfl | hc'
            · exact (List.nodup_cons.1 hInv.stack_nodup).1 hs'
            · exact s3 hc'
        · rw [List.nodup_append]
          refine ⟨?_, (List.nodup_cons.1 hInv.stack_nodup).2, ?_⟩
          · exact List.nodup_reverse.2 (hndnodup.filter _)
          · intro x hx hr
            exact hstack_input x ((hmempushes x).1 hx).1 hr
        · intro p hp inp hinp
          rcases List.mem_append.1 hp with hp' | hp'
          · rcases hInv.oblig p hp' inp hinp with ⟨d', hd', hlt⟩ | hstk
            · exact Or.inl ⟨d', List.mem_append_left _ hd', hlt⟩
            · rcases List.mem_cons.1 hstk with rfl | hstk'
              · refine Or.inl ⟨newIdx, List.mem_append_right _ (List.mem_singleton.2 rfl), ?_⟩
                exact (hInv.entries p hp').2.2.2.1
              · exact Or.inr (List.mem_append_right _ hstk')
          · rw [List.mem_singleton] at hp'
            subst hp'
            by_cases hmem : inp = orig ∨ inp ∈ visited
            · exfalso
              rcases hmem with rfl | hv
              · exact absurd (hPOorig inp hinp).1 (lt_irrefl _)
              · exact hvisited_input inp hinp hv
            · exact Or.inr (List.mem_append_left _ ((hmempushes inp).2 ⟨hinp, hmem⟩))
        · intro x hx
          rcases hx with hx | hx
          · rcases List.mem_append.1 hx with hx' | hx'
            · exact Or.inr ⟨orig, List.mem_cons_self _ _, ((hmempushes x).1 hx').1⟩
            · rcases hInv.origin x (Or.inl (List.mem_cons_of_mem _ hx')) with h | ⟨q, hq, hqi⟩
              · exact Or.inl h
              · exact Or.inr ⟨q, List.mem_cons_of_mem _ hq, hqi⟩
          · rcases List.mem_cons.1 hx with rfl | hx'
            · rcases hInv.origin x (Or.inl (List.mem_cons_self _ _)) with h | ⟨q, hq, hqi⟩
              · exact Or.inl h
              · exact Or.inr ⟨q, List.mem_cons_of_mem _ hq, hqi⟩
            · rcases hInv.origin x (Or.inr hx') with h | ⟨q, hq, hqi⟩
              · exact Or.inl h
              · exact Or.inr ⟨q, List.mem_cons_of_mem _ hq, hqi⟩
        · calc nodesBase.length ≤ nodes.length := hInv.base_len
            _ ≤ (nodes ++ [(⟨nd.original_op_index, []⟩ : UnrolledNode)]).length := by simp
        · intro j hj
          rw [List.getElem?_append_left (lt_of_lt_of_le hj hInv.base_len)]
          exact hInv.base_pre j hj
        · intro j hj1 hj2
          simp only [List.length_append, List.length_singleton] at hj2
          by_cases hje : j < nodes.length
          · obtain ⟨o, ho⟩ := hInv.appended j hj1 hje
            exact ⟨o, List.mem_append_left _ ho⟩
          · have : j = newIdx := by omega
            subst this
            exact ⟨orig, List.mem_append_right _ (List.mem_singleton.2 rfl)⟩
      have hμ' : (pushes ++ rest).length + sumUnvisited initial (orig :: visited) < fuel := by
        have hsum := sumUnvisited_pop initial visited orig ho1 ho3
        rw [← hnd] at hsum
        have hpl : pushes.length ≤ nd.input_node_indices.length := by
          rw [hpushes, List.length_reverse]
          exact List.length_filter_le _ _
        simp only [List.length_append, List.length_cons] at hμ ⊢
        omega
      obtain ⟨visited', hInvF, hdom⟩ := ih (pushes ++ rest) (orig :: visited)
        (dmap ++ [(orig, newIdx)]) (nodes ++ [⟨nd.original_op_index, []⟩]) hInv' hμ'
      refine ⟨visited', hInvF, ?_⟩
      intro x hx
      rcases hx with hx | hx
      · rcases List.mem_cons.1 hx with rfl | hx'
        · exact hdom x (Or.inr (List.mem_cons_self _ _))
        · exact hdom x (Or.inl (List.mem_append_right _ hx'))
      · exact hdom x (Or.inr (List.mem_cons_of_mem _ hx))

theorem map_range_getD (l : List UnrolledNode) (f : UnrolledNode → ℕ) :
    (List.range l.length).map (fun o => f (l.getD o ⟨0, []⟩)) = l.map f := by
  apply List.ext_getElem
  · simp
  · intro i h1 h2
    simp only [List.getElem_map, List.getElem_range]
    congr 1
    have hi : i < l.length := by simpa using h2
    rw [List.getD_eq_getElem?_getD, List.getElem?_eq_getElem hi]
    rfl

theorem sum_map_one_add (l : List UnrolledNode) (g : UnrolledNode → ℕ) :
    (l.map (fun n => 1 + g n)).sum = l.length + (l.map g).sum := by
  induction l with
  | nil => rfl
  | cons a t ih =>
    simp only [List.map_cons, List.sum_cons, List.length_cons, ih]
    omega

theorem sumUnvisited_nil (initial : List UnrolledNode) :
    sumUnvisited initial [] =
      initial.length + (initial.map (fun n => n.input_node_indices.length)).sum := by
  unfold sumUnvisited
  have h1 : (List.range initial.length).filter (fun o => decide (o ∉ ([] : List ℕ))) =
      List.range initial.length := by
    simp
  rw [h1, map_range_getD initial (fun n => 1 + n.input_node_indices.length),
    sum_map_one_add initial (fun n => n.input_node_indices.length)]

theorem dupPhase2_cons (initial : List UnrolledNode) (mapping dmapAll rest : List (ℕ × ℕ))
    (o d : ℕ) (nodes : List UnrolledNode) :
    dupPhase2 initial mapping dmapAll ((o, d) :: rest) nodes =
      if initial.length ≤ o ∨ nodes.length ≤ d then
        dupPhase2 initial mapping dmapAll rest nodes
      else
        dupPhase2 initial mapping dmapAll rest
          (nodes.set d ⟨(nodes.getD d ⟨0, []⟩).original_op_index,
            (initial.getD o ⟨0, []⟩).input_node_indices.filterMap
              (relink mapping dmapAll nodes.length)⟩) := rfl

theorem dupPhase2_length (initial : List UnrolledNode) (mapping dmapAll : List (ℕ × ℕ)) :
    ∀ (todo : List (ℕ × ℕ)) (nodes : List UnrolledNode),
      (dupPhase2 initial mapping dmapAll todo nodes).length = nodes.length := by
  intro todo
  induction todo with
  | nil => intro nodes; rfl
  | cons p rest ih =>
    intro nodes
    obtain ⟨o, d⟩ := p
    rw [dupPhase2_cons]
    by_cases hg : initial.length ≤ o ∨ nodes.length ≤ d
    · rw [if_pos hg]
      exact ih nodes
    · rw [if_neg hg, ih]
      exact List.length_set nodes d _

theorem getElem?_set_ne_node (l : List UnrolledNode) (i j : ℕ) (a : UnrolledNode)
    (h : i ≠ j) : (l.set i a)[j]? = l[j]? := by
  rcases Nat.lt_or_ge j l.length with hj | hj
  · rw [List.getElem?_eq_getElem (by simpa using hj), List.getElem?_eq_getElem hj]
    rw [List.getElem_set]
    rw [if_neg h]
  · rw [List.getElem?_eq_none (by simpa using hj), List.getElem?_eq_none hj]

theorem getElem?_set_self_node (l : List UnrolledNode) (i : ℕ) (a : UnrolledNode)
    (h : i < l.length) : (l.set i a)[i]? = some a := by
  rw [List.getElem?_eq_getElem (by simpa using h), List.getElem_set]
  rw [if_pos rfl]

theorem dupPhase2_preserve (initial : List UnrolledNode) (mapping dmapAll : List (ℕ × ℕ)) :
    ∀ (todo : List (ℕ × ℕ)) (nodes : List UnrolledNode) (j : ℕ),
      (∀ p ∈ todo, p.2 ≠ j) →
      (dupPhase2 initial mapping dmapAll todo nodes)[j]? = nodes[j]? := by
  intro todo
  induction todo with
  | nil => intro nodes j _; rfl
  | cons p rest ih =>
    intro nodes j hj
    obtain ⟨o, d⟩ := p
    rw [dupPhase2_cons]
    by_cases hg : initial.length ≤ o ∨ nodes.length ≤ d
    · rw [if_pos hg]
      exact ih nodes j (fun p hp => hj p (List.mem_cons_of_mem _ hp))
    · rw [if_neg hg, ih _ j (fun p hp => hj p (List.mem_cons_of_mem _ hp))]
      exact getElem?_set_ne_node nodes d j _ (hj (o, d) (List.mem_cons_self _ _))

theorem dupPhase2_entry (initial : List UnrolledNode) (mapping dmapAll : List (ℕ × ℕ))
    (N : ℕ) :
    ∀ (todo : List (ℕ × ℕ)) (nodes : List UnrolledNode), nodes.length = N →
      List.Pairwise (fun a b => a.2 ≠ b.2) todo →
      ∀ o d, (o, d) ∈ todo → o < initial.length → d < N →
      ∃ op, (dupPhase2 initial mapping dmapAll todo nodes)[d]? =
        some ⟨op, (initial.getD o ⟨0, []⟩).input_node_indices.filterMap
          (relink mapping dmapAll N)⟩ := by
  intro todo
  induction todo with
  | nil => intro nodes _ _ o d hmem; cases hmem
  | cons p rest ih =>
    intro nodes hN hpw o d hmem ho hd
    obtain ⟨o', d'⟩ := p
    rw [dupPhase2_cons]
    rcases List.mem_cons.1 hmem with heq | hmem'
    · cases heq
      have hdn : d < nodes.length := by omega
      have hguard : ¬ (initial.length ≤ o ∨ nodes.length ≤ d) := by
        push_neg
        exact ⟨ho, hdn⟩
      rw [if_neg hguard]
      rw [dupPhase2_preserve initial mapping dmapAll rest _ d
        (fun p hp => ((List.pairwise_cons.1 hpw).1 p hp).symm)]
      refine ⟨(nodes.getD d ⟨0, []⟩).original_op_index, ?_⟩
      rw [getElem?_set_self_node nodes d _ hdn, hN]
    · by_cases hg : initial.length ≤ o' ∨ nodes.length ≤ d'
      · rw [if_pos hg]
        exact ih nodes hN (List.pairwise_cons.1 hpw).2 o d hmem' ho hd
      · rw [if_neg hg]
        refine ih _ ?_ (List.pairwise_cons.1 hpw).2 o d hmem' ho hd
        rw [List.length_set]
        exact hN

theorem mapInsert_bounded (m : List (ℕ × ℕ)) (k v n : ℕ) (hm : MappingBounded m n)
    (hv : v < n) : MappingBounded (mapInsert m k v) n := by
  intro p hp
  rcases List.mem_cons.1 hp with rfl | hp'
  · exact hv
  · exact hm p (List.mem_filter.1 hp').1

theorem foldl_mapInsert_bounded (n : ℕ) :
    ∀ (l : List (ℕ × ℕ)) (m : List (ℕ × ℕ)), MappingBounded m n → (∀ p ∈ l, p.2 < n) →
      MappingBounded (l.foldl (fun m p => mapInsert m p.1 p.2) m) n := by
  intro l
  induction l with
  | nil => intro m hm _; exact hm
  | cons p rest ih =>
    intro m hm hl
    rw [List.foldl_cons]
    exact ih _ (mapInsert_bounded m p.1 p.2 n hm (hl p (List.mem_cons_self _ _)))
      (fun q hq => hl q (List.mem_cons_of_mem _ hq))

theorem applyLoopIter_spec (initial : List UnrolledNode) (rule : FeedbackLoop)
    (hPO : PlanOrdered initial) (hF : (allInputs initial).Nodup)
    (hto : rule.to_node < initial.length)
    (st : List (ℕ × ℕ) × List UnrolledNode)
    (hPOst : PlanOrdered st.2) (hMB : MappingBounded st.1 st.2.length) :
    PlanOrdered (applyLoopIter initial rule st).2 ∧
      MappingBounded (applyLoopIter initial rule st).1
        (applyLoopIter initial rule st).2.length := by
  obtain ⟨mapping, nodes0⟩ := st
  dsimp only at hPOst hMB
  cases hlk : mapping.lookup rule.from_node with
  | none =>
    have happ : applyLoopIter initial rule (mapping, nodes0) = (mapping, nodes0) := by
      unfold applyLoopIter
      dsimp only
      rw [hlk]
    rw [happ]
    exact ⟨hPOst, hMB⟩
  | some target_idx =>
    rcases hdp : dupPhase1 initial
        (2 + initial.length + (initial.map (fun n => n.input_node_indices.length)).sum)
        [rule.to_node] [] [] nodes0 with ⟨dmap, nodes1⟩
    have hInv0 : Dup1Inv initial rule.to_node nodes0 [rule.to_node] [] [] nodes0 := by
      constructor
      · intro x
        simp
      · exact List.Pairwise.nil
      · exact List.Pairwise.nil
      · intro p hp
        cases hp
      · intro s hs
        rw [List.mem_singleton] at hs
        subst hs
        exact ⟨hto, le_refl _, by simp⟩
      · exact List.nodup_singleton _
      · intro p hp
        cases hp
      · intro x hx
        rcases hx with hx | hx
        · exact Or.inl (List.mem_singleton.1 hx)
        · cases hx
      · exact le_refl _
      · intro j _
        rfl
      · intro j hj1 hj2
        exact absurd hj2 (Nat.not_lt.2 hj1)
    have hμ0 : ([rule.to_node] : List ℕ).length + sumUnvisited initial [] <
        2 + initial.length + (initial.map (fun n => n.input_node_indices.length)).sum := by
      rw [sumUnvisited_nil]
      simp only [List.length_singleton]
      omega
    obtain ⟨visited', hInv1, hdom⟩ := dupPhase1_spec initial rule.to_node nodes0 hPO hF
      (2 + initial.length + (initial.map (fun n => n.input_node_indices.length)).sum)
      [rule.to_node] [] [] nodes0 hInv0 hμ0
    rw [hdp] at hInv1 hdom
    dsimp only at hInv1 hdom
    set nodes2 := dupPhase2 initial mapping dmap dmap nodes1 with hnodes2
    have hlen2 : nodes2.length = nodes1.length := by
      rw [hnodes2]
      exact dupPhase2_length initial mapping dmap dmap nodes1
    have hlen01 : nodes0.length ≤ nodes1.length := hInv1.base_len
    have hvals_ne : List.Pairwise (fun a b : ℕ × ℕ => a.2 ≠ b.2) dmap :=
      hInv1.vals_lt.imp (fun h => Nat.ne_of_lt h)
    have hpres : ∀ j, j < nodes0.length → nodes2[j]? = nodes0[j]? := by
      intro j hj
      have h1 : nodes2[j]? = nodes1[j]? := by
        rw [hnodes2]
        refine dupPhase2_preserve initial mapping dmap dmap nodes1 j ?_
        intro p hp
        have := (hInv1.entries p hp).2.2.1
        omega
      rw [h1, hInv1.base_pre j hj]
    have hrelinked : ∀ o d, (o, d) ∈ dmap → ∃ op,
        nodes2[d]? = some ⟨op, (initial.getD o ⟨0, []⟩).input_node_indices.filterMap
          (relink mapping dmap nodes1.length)⟩ := by
      intro o d hod
      have he := hInv1.entries (o, d) hod
      rw [hnodes2]
      exact dupPhase2_entry initial mapping dmap nodes1.length dmap nodes1 rfl hvals_ne
        o d hod he.1 he.2.2.2.1
    have hinp_bound : ∀ o d, (o, d) ∈ dmap →
        ∀ x ∈ (initial.getD o ⟨0, []⟩).input_node_indices.filterMap
          (relink mapping dmap nodes1.length), d < x ∧ x < nodes1.length := by
      intro o d hod x hx
      obtain ⟨inp, hinp, hrel⟩ := List.mem_filterMap.1 hx
      rcases hobl : dmap.lookup inp with _ | dd
      · exfalso
        rcases hInv1.oblig (o, d) hod inp hinp with ⟨d2, hd2, _⟩ | hstk
        · rw [lookup_eq_of_mem dmap hInv1.keys_nodup inp d2 hd2] at hobl
          cases hobl
        · cases hstk
      · have hmemd : (inp, dd) ∈ dmap := mem_of_lookup dmap inp dd hobl
        have heq : x = dd := by
          simp only [relink, hobl, Option.some.injEq] at hrel
          exact hrel.symm
        subst heq
        rcases hInv1.oblig (o, d) hod inp hinp with ⟨d2, hd2, hlt⟩ | hstk
        · have h3 : (some x : Option ℕ) = some d2 := by
            rw [← hobl, lookup_eq_of_mem dmap hInv1.keys_nodup inp d2 hd2]
          injection h3 with h3
          subst h3
          exact ⟨hlt, (hInv1.entries (inp, x) hmemd).2.2.2.1⟩
        · cases hstk
    have hPO2 : PlanOrdered nodes2 := by
      intro j nd hnd inp hinp
      rcases Nat.lt_or_ge j nodes0.length with hj | hj
      · rw [hpres j hj] at hnd
        have hb := hPOst j nd hnd inp hinp
        refine ⟨hb.1, ?_⟩
        calc inp < nodes0.length := hb.2
          _ ≤ nodes1.length := hlen01
          _ = nodes2.length := hlen2.symm
      · have hjlen : j < nodes2.length := by
          by_contra hc
          rw [List.getElem?_eq_none (by omega)] at hnd
          cases hnd
        have hjlen1 : j < nodes1.length := by
          rw [← hlen2]
          exact hjlen
        obtain ⟨o, ho⟩ := hInv1.appended j hj hjlen1
        obtain ⟨op, hop⟩ := hrelinked o j ho
        rw [hop] at hnd
        injection hnd with hnd
        subst hnd
        have hb := hinp_bound o j ho inp hinp
        refine ⟨hb.1, ?_⟩
        rw [hlen2]
        exact hb.2
    have hMB1 : MappingBounded (dmap.foldl (fun m p => mapInsert m p.1 p.2) mapping)
        nodes1.length := by
      refine foldl_mapInsert_bounded nodes1.length dmap mapping ?_ ?_
      · intro p hp
        exact lt_of_lt_of_le (hMB p hp) hlen01
      · intro p hp
        exact (hInv1.entries p hp).2.2.2.1
    have happ : applyLoopIter initial rule (mapping, nodes0) =
        (dmap.foldl (fun m p => mapInsert m p.1 p.2) mapping,
          match dmap.lookup rule.to_node with
          | some rootIdx =>
            if target_idx < nodes2.length then
              nodes2.set target_idx ⟨(nodes2.getD target_idx ⟨0, []⟩).original_op_index,
                (nodes2.getD target_idx ⟨0, []⟩).input_node_indices ++ [rootIdx]⟩
            else nodes2
          | none => nodes2) := by
      unfold applyLoopIter
      dsimp only
      rw [hlk]
      dsimp only
      rw [hdp]
    rw [happ]
    cases hlk2 : dmap.lookup rule.to_node with
    | none =>
      dsimp only
      refine ⟨hPO2, ?_⟩
      rw [hlen2]
      exact hMB1
    | some rootIdx =>
      dsimp only
      have htarget : (rule.from_node, target_idx) ∈ mapping :=
        mem_of_lookup mapping _ _ hlk
      have htb : target_idx < nodes0.length := hMB _ htarget
      have hroot : (rule.to_node, rootIdx) ∈ dmap := mem_of_lookup dmap _ _ hlk2
      have hrootup : nodes0.length ≤ rootIdx := (hInv1.entries _ hroot).2.2.1
      have hrootlt : rootIdx < nodes1.length := (hInv1.entries _ hroot).2.2.2.1
      have htb2 : target_idx < nodes2.length := by omega
      rw [if_pos htb2]
      have ht : nodes2[target_idx]? = some (nodes2.getD target_idx ⟨0, []⟩) :=
        getElem?_eq_some_getD nodes2 target_idx htb2
      set t := nodes2.getD target_idx ⟨0, []⟩ with hts
      constructor
      · intro j nd hnd inp hinp
        rcases eq_or_ne j target_idx with rfl | hne
        · rw [getElem?_set_self_node nodes2 j _ htb2] at hnd
          injection hnd with hnd
          subst hnd
          rcases List.mem_append.1 hinp with hold | hnew
          · have hb := hPO2 j t ht inp hold
            refine ⟨hb.1, ?_⟩
            rw [List.length_set]
            exact hb.2
          · rw [List.mem_singleton] at hnew
            subst hnew
            refine ⟨by omega, ?_⟩
            rw [List.length_set, hlen2]
            exact hrootlt
        · rw [getElem?_set_ne_node nodes2 target_idx j _ (Ne.symm hne)] at hnd
          have hb := hPO2 j nd hnd inp hinp
          refine ⟨hb.1, ?_⟩
          rw [List.length_set]
          exact hb.2
      · rw [List.length_set, hlen2]
        exact hMB1

theorem applyLoopIterN_spec (initial : List UnrolledNode) (rule : FeedbackLoop)
    (hPO : PlanOrdered initial) (hF : (allInputs initial).Nodup)
    (hto : rule.to_node < initial.length) :
    ∀ (l : List ℕ) (st : List (ℕ × ℕ) × List UnrolledNode),
      PlanOrdered st.2 → MappingBounded st.1 st.2.length →
      PlanOrdered (l.foldl (fun s _ => applyLoopIter initial rule s) st).2 ∧
        MappingBounded (l.foldl (fun s _ => applyLoopIter initial rule s) st).1
          (l.foldl (fun s _ => applyLoopIter initial rule s) st).2.length := by
  intro l
  induction l with
  | nil =>
    intro st h1 h2
    exact ⟨h1, h2⟩
  | cons a rest ih =>
    intro st h1 h2
    rw [List.foldl_cons]
    obtain ⟨h1', h2'⟩ := applyLoopIter_spec initial rule hPO hF hto st h1 h2
    exact ih _ h1' h2'

theorem applyLoops_spec (initial : List UnrolledNode)
    (hPO : PlanOrdered initial) (hF : (allInputs initial).Nodup) :
    ∀ (loops : List FeedbackLoop) (st : List (ℕ × ℕ) × List UnrolledNode),
      PlanOrdered st.2 → MappingBounded st.1 st.2.length →
      PlanOrdered (applyLoops initial loops st).2 ∧
        MappingBounded (applyLoops initial loops st).1
          (applyLoops initial loops st).2.length := by
  intro loops
  induction loops with
  | nil =>
    intro st h1 h2
    exact ⟨h1, h2⟩
  | cons rule rest ih =>
    intro st h1 h2
    unfold applyLoops
    rw [List.foldl_cons]
    by_cases hg : initial.length ≤ rule.from_node ∨ initial.length ≤ rule.to_node
    · rw [if_pos hg]
      have hrec := ih st h1 h2
      unfold applyLoops at hrec
      exact hrec
    · rw [if_neg hg]
      push_neg at hg
      obtain ⟨h1', h2'⟩ := applyLoopIterN_spec initial rule hPO hF hg.2
        (List.range rule.count) st h1 h2
      have hrec := ih _ h1' h2'
      unfold applyLoops at hrec
      exact hrec

/-- **C1** (amended).  For every plan compiled by `build_unrolled_graph` —
under any list of feedback (repeat) rules, including the empty one used by
`Algorithm::new` and `set_matrix` — every index in a node's input list is
strictly *greater* than the node's own index (and in bounds): each node's
inputs appear *later* in the plan than the node itself.  The base builder
allocates a node before recursing into its inputs, and the feedback pass
duplicates parents before children and attaches only freshly appended
duplicate roots, so every link it creates also points forward. -/
theorem plan_inputs_strictly_greater (matrix : ConnMatrix) (carriers : List ℕ)
    (loops : List FeedbackLoop) (plan : List UnrolledNode)
    (h : buildUnrolledGraph matrix carriers loops = .ok plan) :
    ∀ j nd, plan[j]? = some nd → ∀ inp ∈ nd.input_node_indices,
      j < inp ∧ inp < plan.length := by
  unfold buildUnrolledGraph at h
  cases hr : buildRoots matrix (2 * matrix.length + 2) carriers [] [] with
  | error e =>
    rw [hr] at h
    exact absurd h (by simp)
  | ok p =>
    obtain ⟨roots, nodes⟩ := p
    rw [hr] at h
    simp only [Except.ok.injEq] at h
    subst h
    have hbase : PlanOrdered nodes ∧ (allInputs nodes).Nodup :=
      buildRoots_forest matrix (2 * matrix.length + 2) carriers [] [] roots nodes hr
        (fun j nd hnd => by rw [List.getElem?_nil] at hnd; cases hnd)
        (by simp [allInputs])
    have hMB0 : MappingBounded ((List.range nodes.length).map (fun i => (i, i)))
        nodes.length := by
      intro q hq
      obtain ⟨i, hi, rfl⟩ := List.mem_map.1 hq
      exact List.mem_range.1 hi
    exact (applyLoops_spec nodes hbase.1 hbase.2 loops
      ((List.range nodes.length).map (fun i => (i, i)), nodes) hbase.1 hMB0).1

/-- Witness for the amended C1 at the in-repo self-feedback test plan: one
operator, carrier 0, one repeat rule `(from 0, to 0, count 1)` — the compiled
plan is `[⟨0, [1]⟩, ⟨0, []⟩]` and node 0's input 1 is greater than 0 and in
bounds. -/
theorem plan_inputs_strictly_greater_witness :
    0 < 1 ∧ 1 < ([(⟨0, [1]⟩ : UnrolledNode), ⟨0, []⟩] : List UnrolledNode).length :=
  plan_inputs_strictly_greater [[none]] [0] [⟨0, 0, 1⟩]
    [⟨0, [1]⟩, ⟨0, []⟩] rfl 0 ⟨0, [1]⟩ rfl 1 (by decide)


end RustFmSynth
